import Mathlib

/-!
Verification development for the `thiol-typeck` crate: the type-checking
stage of the thiol compiler (`src/thiol-typeck/src/lib.rs`).

The HIR data model (`thiol_hir`: identifiers, type references, type
definitions, functions, modules) and the canonical `Type` value
(`thiol-typeck/src/types.rs`) are crates/files of the repository that are
not part of the given sources; they are modelled from the specification
(marked `Modelled from the spec:`).  The checking logic itself
(`type_check`, `process_type_definitions`, `Context::ty_ref`,
`Context::ty_named`, `Context::add_type_definition`,
`Context::add_function_signature`, `Context::add_constant`,
`type_def_deps`, `type_ref_deps`, the interner operations) is translated
from `lib.rs`.

Arena-stored HIR values (`id_arena` ids into `hir::Context`) are embedded
as trees: every `Id<T>` dereference `ctx.xs[id]` in the Rust source becomes
direct structural access, and the per-occurrence source locations that the
Rust code reads from the side tables (`identifier_fcs`, `type_ref_fcs`,
`type_def_fcs`, `function_fcs`, `variable_def_fcs`) are carried as fields
on the corresponding tree nodes.

Recursion through the definition table (`Context::ty_ref` /
`Context::ty_named` instantiating generic definitions) is not structurally
terminating, so those functions take a fuel argument; `none` models
non-termination / insufficient fuel (and the panicking indexings of the
Rust source that cannot fire in reachable states).
-/

namespace Thiol

/-- Modelled from the spec: an interned name (`hir::Identifier`, a string). -/
abbrev Identifier := String

/-- Modelled from the spec: a source location stamp (`hir::FileLocation`);
its internal structure is irrelevant here, so it is a bare number. -/
abbrev FileLocation := Nat

/-- Modelled from the spec: `TypeId`, an opaque numeric handle into the
type interner (`thiol-typeck/src/types.rs`). -/
abbrev TypeId := Nat

/-- Association-list lookup, modelling `BTreeMap::get` / `HashMap::get`. -/
def alookup {β : Type} : List (Identifier × β) → Identifier → Option β
  | [], _ => none
  | (k, v) :: rest, key => if k = key then some v else alookup rest key

/-- Association-list insert-or-replace, modelling `BTreeMap::insert` /
`HashMap::insert` (the previous binding for the key, if any, is dropped). -/
def mapInsert {β : Type} (l : List (Identifier × β)) (k : Identifier) (v : β) :
    List (Identifier × β) :=
  (k, v) :: l.filter (fun p => decide (p.1 ≠ k))

/-- Modelled from the spec: the structural canonical type value
(`Type` in `thiol-typeck/src/types.rs`): primitive scalars, vectors over
each scalar kind (component count, optional subordinate vector-type tag,
optional coordinate-space name), matrices (column/row counts, optional
named transform pair), open and sized arrays over an interned handle,
records over an ordered field list, and the nominal `Distinct` wrapper.
Nested types appear only as interned `TypeId` handles. -/
inductive Ty where
  | bool
  | int
  | uint
  | float
  | double
  | boolVec (components : Nat)
  | intVec (components : Nat) (vtype : Option Nat) (space : Option Identifier)
  | uintVec (components : Nat) (vtype : Option Nat) (space : Option Identifier)
  | floatVec (components : Nat) (vtype : Option Nat) (space : Option Identifier)
  | doubleVec (components : Nat) (vtype : Option Nat) (space : Option Identifier)
  | floatMat (cols rows : Nat) (transform : Option (Identifier × Identifier))
  | doubleMat (cols rows : Nat) (transform : Option (Identifier × Identifier))
  | openArray (base : TypeId)
  | array (base : TypeId) (size : Nat)
  | record (fields : List (Identifier × TypeId))
  | distinct (distinct_id : Nat) (inner : TypeId)
deriving DecidableEq

/-- Modelled from the spec: the HIR-level primitive type reference
(`hir::PrimitiveType`), mirroring the scalar/vector/matrix shapes; the
vector-type tag and the space/transform identifiers are already resolved
to values here (the Rust code copies them out of the HIR arenas). -/
inductive PrimitiveType where
  | bool
  | int
  | uint
  | float
  | double
  | boolVec (components : Nat)
  | intVec (components : Nat) (vtype : Option Nat) (space : Option Identifier)
  | uintVec (components : Nat) (vtype : Option Nat) (space : Option Identifier)
  | floatVec (components : Nat) (vtype : Option Nat) (space : Option Identifier)
  | doubleVec (components : Nat) (vtype : Option Nat) (space : Option Identifier)
  | floatMat (cols rows : Nat) (transform : Option (Identifier × Identifier))
  | doubleMat (cols rows : Nat) (transform : Option (Identifier × Identifier))

/-- Translation of the primitive-reference arm of `Context::ty_ref`
(`lib.rs` lines 257-324): each HIR primitive maps to the matching
canonical `Ty` scalar/vector/matrix value. -/
def prim_to_type : PrimitiveType → Ty
  | .bool => .bool
  | .int => .int
  | .uint => .uint
  | .float => .float
  | .double => .double
  | .boolVec c => .boolVec c
  | .intVec c v s => .intVec c v s
  | .uintVec c v s => .uintVec c v s
  | .floatVec c v s => .floatVec c v s
  | .doubleVec c v s => .doubleVec c v s
  | .floatMat c r t => .floatMat c r t
  | .doubleMat c r t => .doubleMat c r t

/-- Modelled from the spec: the pre-resolution type-reference tree
(`hir::TypeReference`).  A `named` node carries the location of the whole
reference (`type_ref_fcs`) and of the name occurrence (`identifier_fcs`). -/
inductive TypeReference where
  | primitive (p : PrimitiveType)
  | openArray (inner : TypeReference)
  | array (base : TypeReference) (size : Nat)
  | named (refLoc nameLoc : FileLocation) (name : Identifier)
      (generics : List TypeReference)

/-- Modelled from the spec: a variable definition (`hir::VariableDef`):
a named, typed slot used both for record fields and for constants.
`nameLoc` is `identifier_fcs[&name]`, `defLoc` is `variable_def_fcs[&id]`. -/
structure VariableDef where
  nameLoc : FileLocation
  name : Identifier
  type_ : TypeReference
  defLoc : FileLocation

/-- Modelled from the spec: the right-hand side of a type definition
(`hir::TypeDefinitionRhs`): a distinct wrapper, a transparent alias, or a
record with an ordered field list. -/
inductive TypeDefinitionRhs where
  | distinct (target : TypeReference)
  | aliasOf (target : TypeReference)
  | record (fields : List VariableDef)

/-- Modelled from the spec: a type definition (`hir::TypeDefinition`):
name, ordered generic parameter names (each an identifier occurrence with
its location) and a right-hand side.  `defLoc` is `type_def_fcs[&id]`,
`nameLoc` is `identifier_fcs[&name]`. -/
structure TypeDefinition where
  defLoc : FileLocation
  nameLoc : FileLocation
  name : Identifier
  generics : List (FileLocation × Identifier)
  rhs : TypeDefinitionRhs

instance : Inhabited TypeDefinition :=
  ⟨{ defLoc := 0, nameLoc := 0, name := "", generics := [],
     rhs := .aliasOf (.primitive .bool) }⟩

/-- Modelled from the spec: a function declaration (`hir::Function`):
name, argument list (name and type reference), return type reference.
`funcLoc` is `function_fcs[&id]`, `nameLoc` is `identifier_fcs[&name]`. -/
structure Function where
  funcLoc : FileLocation
  nameLoc : FileLocation
  name : Identifier
  args : List (Identifier × TypeReference)
  ret_type : TypeReference

/-- Modelled from the spec: a module (`hir::Module`): the lists of type
definitions, functions and constants to check. -/
structure Module where
  types : List TypeDefinition
  functions : List Function
  consts : List VariableDef

/-- Translation of `enum Error` (`lib.rs` lines 16-71); every variant
keeps the source's payload fields, in declaration order. -/
inductive Error where
  | TypeRedefinition (previous_name redefinition_name redefinition : FileLocation)
  | GenericParamaterRedefinition (previous_name redefinition : FileLocation)
  | RecursiveTypeDefinition (type_def type_name : FileLocation)
      (recurive_usages : List FileLocation)
  | MutuallyRecursiveTypeDefinitions (type_def_idents : List FileLocation)
  | UndefinedType (name : Identifier) (uses : List FileLocation)
  | HigherKindedGenericTypeUsed (loc : FileLocation) (generic_name : Identifier)
  | MismatchedNumberGenericArgs (loc : FileLocation) (given expected : Nat)
      (def_loc : FileLocation)
  | FieldRedefinition (previous_name redefinition_name item : FileLocation)
  | FunctionRedefinition
      (previous_name previous_sig redefinition_name redefinition_sig : FileLocation)
  | ConstantRedefinition
      (previous_name previous_def redefinition_name redefinition_def : FileLocation)
deriving DecidableEq

/-- Modelled from the spec: a registered function signature
(`FunctionSig` in `types.rs`): the originating function (standing in for
`func_id`), the resolved argument list and return type. -/
structure FunctionSig where
  func : Function
  args : List (Identifier × TypeId)
  ret : TypeId

/-- Modelled from the spec: a registered constant signature
(`ConstantSig` in `types.rs`): the originating definition (standing in
for `const_id`) and its resolved type. -/
structure ConstantSig where
  const : VariableDef
  type_ : TypeId

/-- Translation of `struct Context` (`lib.rs` lines 228-242).  The
bijective interner `BiBTreeMap<Type, TypeId>` is embedded as an
association list of pairs; the maps are association lists. -/
structure Context where
  defs : List (Identifier × TypeDefinition)
  generic_distinct_ids : List (Identifier × Nat)
  complete_types : List (Identifier × TypeId)
  types : List (Ty × TypeId)
  distinct_counter : Nat
  function_sigs : List (Identifier × FunctionSig)
  consts : List (Identifier × ConstantSig)

/-- Translation of `Context::default()`: the empty context. -/
def Context.empty : Context :=
  { defs := [], generic_distinct_ids := [], complete_types := [], types := [],
    distinct_counter := 0, function_sigs := [], consts := [] }

/-- Lookup by structural value in the interner, modelling
`BiBTreeMap::get_by_left`. -/
def getByLeft : List (Ty × TypeId) → Ty → Option TypeId
  | [], _ => none
  | p :: rest, t => if p.1 = t then some p.2 else getByLeft rest t

/-- Lookup by handle in the interner, modelling `BiBTreeMap::get_by_right`. -/
def getByRight : List (Ty × TypeId) → TypeId → Option Ty
  | [], _ => none
  | p :: rest, i => if p.2 = i then some p.1 else getByRight rest i

/-- Insertion into the bidirectional map, modelling `BiBTreeMap::insert`:
any pair conflicting with the new pair in either component is removed. -/
def bimapInsert (m : List (Ty × TypeId)) (t : Ty) (i : TypeId) :
    List (Ty × TypeId) :=
  m.filter (fun p => decide (p.1 ≠ t) && decide (p.2 ≠ i)) ++ [(t, i)]

/-- Translation of `Context::add_type` (`lib.rs` lines 598-604): the next
handle is the current size of the interner; the pair is inserted
unconditionally (the source `debug_assert`s that nothing was overwritten). -/
def Context.add_type (Γ : Context) (ty : Ty) : Context × TypeId :=
  let next_id : TypeId := Γ.types.length
  ({ Γ with types := bimapInsert Γ.types ty next_id }, next_id)

/-- Translation of `Context::add_or_get_type` (`lib.rs` lines 606-612):
return the existing handle of a structurally equal type, else intern. -/
def Context.add_or_get_type (Γ : Context) (ty : Ty) : Context × TypeId :=
  match getByLeft Γ.types ty with
  | some id => (Γ, id)
  | none => Γ.add_type ty

/-- Translation of `Context::next_distinct_id` (`lib.rs` lines 741-745). -/
def Context.next_distinct_id (Γ : Context) : Context × Nat :=
  ({ Γ with distinct_counter := Γ.distinct_counter + 1 }, Γ.distinct_counter)

mutual

/-- Translation of `Context::ty_validate_ref` (`lib.rs` lines 688-739):
validate a type reference inside a generic definition without
instantiating it.  `generics` is the set of declared parameter names. -/
def Context.ty_validate_ref (Γ : Context) (generics : List Identifier) :
    TypeReference → Except Error Unit
  | .primitive _ => .ok ()
  | .openArray inner => Γ.ty_validate_ref generics inner
  | .array base _ => Γ.ty_validate_ref generics base
  | .named refLoc _ name applied_gens =>
    if name ∈ generics then
      if ¬ applied_gens.isEmpty then
        .error (.HigherKindedGenericTypeUsed refLoc name)
      else
        .ok ()
    else
      match alookup Γ.defs name with
      | some d =>
        if d.generics.length ≠ applied_gens.length then
          .error (.MismatchedNumberGenericArgs refLoc applied_gens.length
            d.generics.length d.defLoc)
        else
          Γ.ty_validate_refs generics applied_gens
      | none => .error (.UndefinedType name [refLoc])

/-- Validation of a list of type references: the `for gen in applied_gens`
loop of `Context::ty_validate_ref`, short-circuiting on the first error. -/
def Context.ty_validate_refs (Γ : Context) (generics : List Identifier) :
    List TypeReference → Except Error Unit
  | [] => .ok ()
  | t :: ts =>
    match Γ.ty_validate_ref generics t with
    | .ok () => Γ.ty_validate_refs generics ts
    | .error e => .error e

end

mutual

/-- Translation of `Context::ty_ref` (`lib.rs` lines 245-361): resolve a
type reference to a canonical handle under a substitution from bound
generic parameter names to handles.  State threading makes the `&mut self`
explicit; `none` models exhausted fuel. -/
def Context.ty_ref (fuel : Nat) (Γ : Context) (subst : List (Identifier × TypeId)) :
    TypeReference → Option (Context × Except Error TypeId)
  | t =>
    match fuel with
    | 0 => none
    | fuel + 1 =>
      match t with
      | .primitive p =>
        let r := Γ.add_or_get_type (prim_to_type p)
        some (r.1, .ok r.2)
      | .openArray inner =>
        match Context.ty_ref fuel Γ subst inner with
        | none => none
        | some (Γ', .error e) => some (Γ', .error e)
        | some (Γ', .ok inner_id) =>
          let r := Γ'.add_or_get_type (.openArray inner_id)
          some (r.1, .ok r.2)
      | .array base size =>
        match Context.ty_ref fuel Γ subst base with
        | none => none
        | some (Γ', .error e) => some (Γ', .error e)
        | some (Γ', .ok inner_id) =>
          let r := Γ'.add_or_get_type (.array inner_id size)
          some (r.1, .ok r.2)
      | .named refLoc _ name generics =>
        match Context.ty_ref_args fuel Γ subst generics with
        | none => none
        | some (Γ', .error e) => some (Γ', .error e)
        | some (Γ', .ok gens) =>
          match alookup subst name with
          | some subst_id =>
            if ¬ gens.isEmpty then
              some (Γ', .error (.HigherKindedGenericTypeUsed refLoc name))
            else
              some (Γ', .ok subst_id)
          | none => Context.ty_named fuel Γ' refLoc name gens

/-- Resolution of a list of generic-argument references: the
`for id in generics` loop of `Context::ty_ref`, short-circuiting on the
first error while keeping the mutated state. -/
def Context.ty_ref_args (fuel : Nat) (Γ : Context)
    (subst : List (Identifier × TypeId)) :
    List TypeReference → Option (Context × Except Error (List TypeId))
  | ts =>
    match fuel with
    | 0 => none
    | fuel + 1 =>
      match ts with
      | [] => some (Γ, .ok [])
      | t :: rest =>
        match Context.ty_ref fuel Γ subst t with
        | none => none
        | some (Γ', .error e) => some (Γ', .error e)
        | some (Γ', .ok i) =>
          match Context.ty_ref_args fuel Γ' subst rest with
          | none => none
          | some (Γ'', .error e) => some (Γ'', .error e)
          | some (Γ'', .ok is) => some (Γ'', .ok (i :: is))

/-- Translation of `Context::ty_named` (`lib.rs` lines 614-682): resolve a
named reference whose generic arguments are already handles.  The fast
path consults the completed-types cache; otherwise the registered
definition is instantiated under the parameter substitution.  `none` also
models the panicking `self.generic_distinct_ids[name]` indexing. -/
def Context.ty_named (fuel : Nat) (Γ : Context) (loc : FileLocation)
    (name : Identifier) (generics : List TypeId) :
    Option (Context × Except Error TypeId) :=
  match fuel with
  | 0 => none
  | fuel + 1 =>
    match alookup Γ.complete_types name, generics with
    | some ty, [] => some (Γ, .ok ty)
    | _, _ =>
      match alookup Γ.defs name with
      | none => some (Γ, .error (.UndefinedType name [loc]))
      | some d =>
        if d.generics.length ≠ generics.length then
          some (Γ, .error (.MismatchedNumberGenericArgs loc generics.length
            d.generics.length d.defLoc))
        else
          let subst := (d.generics.map (·.2)).zip generics
          match d.rhs with
          | .distinct target =>
            match Context.ty_ref fuel Γ subst target with
            | none => none
            | some (Γ', .error e) => some (Γ', .error e)
            | some (Γ', .ok inner) =>
              match alookup Γ'.generic_distinct_ids name with
              | none => none
              | some distinct_id =>
                let r := Γ'.add_or_get_type (.distinct distinct_id inner)
                some (r.1, .ok r.2)
          | .aliasOf target => Context.ty_ref fuel Γ subst target
          | .record fields =>
            match alookup Γ.generic_distinct_ids name with
            | none => none
            | some distinct_id =>
              match Context.ty_named_fields fuel Γ subst fields with
              | none => none
              | some (Γ', .error e) => some (Γ', .error e)
              | some (Γ', .ok record_fields) =>
                let r1 := Γ'.add_or_get_type (.record record_fields)
                let r2 := r1.1.add_or_get_type (.distinct distinct_id r1.2)
                some (r2.1, .ok r2.2)

/-- Resolution of the field list of a generic record instantiation: the
`for field in fields` loop of `Context::ty_named`, short-circuiting on
the first error while keeping the mutated state. -/
def Context.ty_named_fields (fuel : Nat) (Γ : Context)
    (subst : List (Identifier × TypeId)) :
    List VariableDef → Option (Context × Except Error (List (Identifier × TypeId)))
  | fs =>
    match fuel with
    | 0 => none
    | fuel + 1 =>
      match fs with
      | [] => some (Γ, .ok [])
      | f :: rest =>
        match Context.ty_ref fuel Γ subst f.type_ with
        | none => none
        | some (Γ', .error e) => some (Γ', .error e)
        | some (Γ', .ok field_ty) =>
          match Context.ty_named_fields fuel Γ' subst rest with
          | none => none
          | some (Γ'', .error e) => some (Γ'', .error e)
          | some (Γ'', .ok fields') => some (Γ'', .ok ((f.name, field_ty) :: fields'))

end

/-- Translation of the duplicate-field detection and resolution loop in
the non-generic `Record` arm of `Context::add_type_definition` (`lib.rs`
lines 393-420): every field is checked against the fields seen so far
(`FieldRedefinition`, replacing the stored location like `HashMap::insert`)
and its type is resolved regardless, collecting all errors. -/
def add_record_fields (fuel : Nat) (Γ : Context) (def_loc : FileLocation) :
    List VariableDef → List (Identifier × FileLocation) → List Error →
    List (Identifier × TypeId) →
    Option (Context × List Error × List (Identifier × TypeId))
  | [], _, errs, fields => some (Γ, errs, fields)
  | f :: rest, fields_so_far, errs, fields =>
    let errs' :=
      match alookup fields_so_far f.name with
      | some prev => errs ++ [.FieldRedefinition prev f.nameLoc def_loc]
      | none => errs
    let fields_so_far' := mapInsert fields_so_far f.name f.nameLoc
    match Context.ty_ref fuel Γ [] f.type_ with
    | none => none
    | some (Γ', .ok id) =>
      add_record_fields fuel Γ' def_loc rest fields_so_far' errs' (fields ++ [(f.name, id)])
    | some (Γ', .error e) =>
      add_record_fields fuel Γ' def_loc rest fields_so_far' (errs' ++ [e]) fields

/-- Translation of the duplicate-field detection and validation loop in
the generic `Record` arm of `Context::add_type_definition` (`lib.rs`
lines 456-475). -/
def validate_record_fields (Γ : Context) (def_loc : FileLocation)
    (generics : List Identifier) :
    List VariableDef → List (Identifier × FileLocation) → List Error → List Error
  | [], _, errs => errs
  | f :: rest, fields_so_far, errs =>
    let errs' :=
      match alookup fields_so_far f.name with
      | some prev => errs ++ [.FieldRedefinition prev f.nameLoc def_loc]
      | none => errs
    let fields_so_far' := mapInsert fields_so_far f.name f.nameLoc
    let errs'' :=
      match Γ.ty_validate_ref generics f.type_ with
      | .ok () => errs'
      | .error e => errs' ++ [e]
    validate_record_fields Γ def_loc generics rest fields_so_far' errs''

/-- Translation of `Context::add_type_definition` (`lib.rs` lines
363-487): register a definition under its name, then either eagerly
resolve a non-generic body (caching the result in `complete_types`) or
validate a generic body (allocating the shared distinct id for `Distinct`
and `Record` shapes). -/
def Context.add_type_definition (fuel : Nat) (Γ : Context) (d : TypeDefinition) :
    Option (Context × Except (List Error) Unit) :=
  let Γ := { Γ with defs := mapInsert Γ.defs d.name d }
  if d.generics.isEmpty then
    match d.rhs with
    | .distinct target =>
      match Context.ty_ref fuel Γ [] target with
      | none => none
      | some (Γ', .error e) => some (Γ', .error [e])
      | some (Γ', .ok alias_id) =>
        let r1 := Γ'.next_distinct_id
        let r2 := r1.1.add_type (.distinct r1.2 alias_id)
        some ({ r2.1 with complete_types := mapInsert r2.1.complete_types d.name r2.2 },
          .ok ())
    | .aliasOf target =>
      match Context.ty_ref fuel Γ [] target with
      | none => none
      | some (Γ', .error e) => some (Γ', .error [e])
      | some (Γ', .ok ty_id) =>
        some ({ Γ' with complete_types := mapInsert Γ'.complete_types d.name ty_id },
          .ok ())
    | .record field_defs =>
      match add_record_fields fuel Γ d.defLoc field_defs [] [] [] with
      | none => none
      | some (Γ', errs, fields) =>
        if ¬ errs.isEmpty then
          some (Γ', .error errs)
        else
          let r1 := Γ'.add_or_get_type (.record fields)
          let r2 := r1.1.next_distinct_id
          let r3 := r2.1.add_type (.distinct r2.2 r1.2)
          some ({ r3.1 with complete_types := mapInsert r3.1.complete_types d.name r3.2 },
            .ok ())
  else
    let generics := d.generics.map (·.2)
    match d.rhs with
    | .distinct target =>
      let errs :=
        match Γ.ty_validate_ref generics target with
        | .ok () => []
        | .error e => [e]
      let r := Γ.next_distinct_id
      let Γ' := { r.1 with
        generic_distinct_ids := mapInsert r.1.generic_distinct_ids d.name r.2 }
      some (Γ', if errs.isEmpty then .ok () else .error errs)
    | .aliasOf target =>
      let errs :=
        match Γ.ty_validate_ref generics target with
        | .ok () => []
        | .error e => [e]
      some (Γ, if errs.isEmpty then .ok () else .error errs)
    | .record field_defs =>
      let errs := validate_record_fields Γ d.defLoc generics field_defs [] []
      let r := Γ.next_distinct_id
      let Γ' := { r.1 with
        generic_distinct_ids := mapInsert r.1.generic_distinct_ids d.name r.2 }
      some (Γ', if errs.isEmpty then .ok () else .error errs)

/-- Translation of the argument-resolution `map`/`collect` in
`Context::add_function_signature` (`lib.rs` lines 498-506): each argument
type is resolved with the empty substitution, short-circuiting on the
first error while keeping the mutated state. -/
def resolve_sig_args (fuel : Nat) (Γ : Context) :
    List (Identifier × TypeReference) →
    Option (Context × Except Error (List (Identifier × TypeId)))
  | [] => some (Γ, .ok [])
  | (nam, ty) :: rest =>
    match Context.ty_ref fuel Γ [] ty with
    | none => none
    | some (Γ', .error e) => some (Γ', .error e)
    | some (Γ', .ok id) =>
      match resolve_sig_args fuel Γ' rest with
      | none => none
      | some (Γ'', .error e) => some (Γ'', .error e)
      | some (Γ'', .ok args) => some (Γ'', .ok ((nam, id) :: args))

/-- Translation of `Context::add_function_signature` (`lib.rs` lines
489-538): resolve return and argument types, then register the signature
unless the name is already taken (`FunctionRedefinition`). -/
def Context.add_function_signature (fuel : Nat) (Γ : Context) (f : Function) :
    Option (Context × Except Error Unit) :=
  match Context.ty_ref fuel Γ [] f.ret_type with
  | none => none
  | some (Γ', .error e) => some (Γ', .error e)
  | some (Γ', .ok ret) =>
    match resolve_sig_args fuel Γ' f.args with
    | none => none
    | some (Γ'', .error e) => some (Γ'', .error e)
    | some (Γ'', .ok args) =>
      match alookup Γ''.function_sigs f.name with
      | none =>
        let sigs := mapInsert Γ''.function_sigs f.name ⟨f, args, ret⟩
        some ({ Γ'' with function_sigs := sigs }, .ok ())
      | some prev =>
        some (Γ'', .error (.FunctionRedefinition prev.func.nameLoc prev.func.funcLoc
          f.nameLoc f.funcLoc))

/-- Translation of `Context::add_constant` (`lib.rs` lines 540-573):
resolve the declared type, then register the constant unless the name is
already taken (`ConstantRedefinition`). -/
def Context.add_constant (fuel : Nat) (Γ : Context) (c : VariableDef) :
    Option (Context × Except Error Unit) :=
  match Context.ty_ref fuel Γ [] c.type_ with
  | none => none
  | some (Γ', .error e) => some (Γ', .error e)
  | some (Γ', .ok ty) =>
    match alookup Γ'.consts c.name with
    | none =>
      some ({ Γ' with consts := mapInsert Γ'.consts c.name ⟨c, ty⟩ }, .ok ())
    | some prev =>
      some (Γ', .error (.ConstantRedefinition prev.const.nameLoc prev.const.defLoc
        c.nameLoc c.defLoc))

/-- Translation of the loop body of `add_function_signatures` (`lib.rs`
lines 107-124): check every function, collecting each error. -/
def add_function_signatures_go (fuel : Nat) (Γ : Context) :
    List Function → List Error → Option (Context × List Error)
  | [], errors => some (Γ, errors)
  | f :: rest, errors =>
    match Context.add_function_signature fuel Γ f with
    | none => none
    | some (Γ', .ok ()) => add_function_signatures_go fuel Γ' rest errors
    | some (Γ', .error e) => add_function_signatures_go fuel Γ' rest (errors ++ [e])

/-- Translation of `add_function_signatures` (`lib.rs` lines 107-124). -/
def add_function_signatures (fuel : Nat) (Γ : Context) (functions : List Function) :
    Option (Context × Except (List Error) Unit) :=
  match add_function_signatures_go fuel Γ functions [] with
  | none => none
  | some (Γ', errors) =>
    some (Γ', if ¬ errors.isEmpty then .error errors else .ok ())

/-- Translation of the loop body of `add_constants` (`lib.rs` lines
87-105): check every constant, collecting each error. -/
def add_constants_go (fuel : Nat) (Γ : Context) :
    List VariableDef → List Error → Option (Context × List Error)
  | [], errs => some (Γ, errs)
  | c :: rest, errs =>
    match Context.add_constant fuel Γ c with
    | none => none
    | some (Γ', .ok ()) => add_constants_go fuel Γ' rest errs
    | some (Γ', .error e) => add_constants_go fuel Γ' rest (errs ++ [e])

/-- Translation of `add_constants` (`lib.rs` lines 87-105). -/
def add_constants (fuel : Nat) (Γ : Context) (consts : List VariableDef) :
    Option (Context × Except (List Error) Unit) :=
  match add_constants_go fuel Γ consts [] with
  | none => none
  | some (Γ', errs) =>
    some (Γ', if errs.isEmpty then .ok () else .error errs)

/-- Dependency map of a definition body: named references seen so far,
each with the list of its usage locations (`HashMap<&str, Vec<FileLocation>>`). -/
abbrev DepMap := List (Identifier × List FileLocation)

/-- Record one named-reference occurrence, modelling
`deps.entry(name).or_default().push(usage_loc)`. -/
def depsAdd (deps : DepMap) (name : Identifier) (loc : FileLocation) : DepMap :=
  if (alookup deps name).isSome then
    deps.map (fun p => if p.1 = name then (p.1, p.2 ++ [loc]) else p)
  else
    deps ++ [(name, [loc])]

mutual

/-- Translation of `type_ref_deps` (`lib.rs` lines 790-812): record every
named reference occurring in a type reference (with the location of the
name occurrence), recursing into array bases and generic arguments. -/
def type_ref_deps (deps : DepMap) : TypeReference → DepMap
  | .primitive _ => deps
  | .openArray base => type_ref_deps deps base
  | .array base _ => type_ref_deps deps base
  | .named _ nameLoc name generics =>
    type_ref_deps_list (depsAdd deps name nameLoc) generics

/-- Recording of a list of references: the `for gen in generics` loop of
`type_ref_deps`. -/
def type_ref_deps_list (deps : DepMap) : List TypeReference → DepMap
  | [] => deps
  | t :: ts => type_ref_deps_list (type_ref_deps deps t) ts

end

/-- Translation of the generic-parameter duplicate check opening
`type_def_deps` (`lib.rs` lines 753-765): walk the parameter list,
failing on the first name already seen, and return all parameter names. -/
def generic_params_check :
    List (FileLocation × Identifier) → List (Identifier × FileLocation) →
    Except Error (List Identifier)
  | [], seen => .ok (seen.map (·.1))
  | (loc, name) :: rest, seen =>
    match alookup seen name with
    | some prev => .error (.GenericParamaterRedefinition prev loc)
    | none => generic_params_check rest (mapInsert seen name loc)

/-- Translation of `type_def_deps` (`lib.rs` lines 748-788): check the
generic parameter list for duplicates, record the named references of the
body into the (caller-supplied, possibly non-empty) dependency map, then
remove the definition's own generic parameter names from the map. -/
def type_def_deps (d : TypeDefinition) (deps : DepMap) : Except Error DepMap :=
  match generic_params_check d.generics [] with
  | .error e => .error e
  | .ok generics =>
    let deps' :=
      match d.rhs with
      | .distinct target => type_ref_deps deps target
      | .aliasOf target => type_ref_deps deps target
      | .record fields => type_ref_deps_list deps (fields.map VariableDef.type_)
    .ok (deps'.filter (fun p => decide (¬ p.1 ∈ generics)))

/-- Translation of the first loop of `process_type_definitions` (`lib.rs`
lines 140-158): allocate one graph node per definition in module order
(node index = position), record the last node for each name, and emit a
`TypeRedefinition` error whenever a name was already mapped. -/
def buildNodes :
    List TypeDefinition → List Error → List TypeDefinition →
    List (Identifier × Nat) →
    List Error × List TypeDefinition × List (Identifier × Nat)
  | [], errs, nodes, tyname_to_node => (errs, nodes, tyname_to_node)
  | d :: rest, errs, nodes, tyname_to_node =>
    let node := nodes.length
    let prev := alookup tyname_to_node d.name
    let tyname_to_node' := mapInsert tyname_to_node d.name node
    let errs' :=
      match prev with
      | some prev_idx =>
        errs ++ [.TypeRedefinition (nodes.getD prev_idx default).nameLoc
          d.nameLoc d.defLoc]
      | none => errs
    buildNodes rest errs' (nodes ++ [d]) tyname_to_node'

/-- Translation of the `deps.drain()` loop of `process_type_definitions`
(`lib.rs` lines 179-189): one edge per distinct referenced name that has a
node, an `UndefinedType` error for every name that has none. -/
def drainDeps (tyname_to_node : List (Identifier × Nat)) (self_node : Nat) :
    DepMap → List Error → List (Nat × Nat) → List Error × List (Nat × Nat)
  | [], errs, edges => (errs, edges)
  | (name, uses) :: rest, errs, edges =>
    match alookup tyname_to_node name with
    | some id => drainDeps tyname_to_node self_node rest errs (edges ++ [(self_node, id)])
    | none =>
      drainDeps tyname_to_node self_node rest (errs ++ [.UndefinedType name uses]) edges

/-- Translation of the second loop of `process_type_definitions` (`lib.rs`
lines 160-190): for each definition compute its dependencies into the
shared map, report self-recursion, and otherwise drain the map into graph
edges.  Note that the `continue` taken on a `RecursiveTypeDefinition`
report skips the drain, so that definition's entries stay in the shared
map for the following iterations, exactly as in the source. -/
def buildDeps (tyname_to_node : List (Identifier × Nat)) :
    List TypeDefinition → List Error → DepMap → List (Nat × Nat) →
    List Error × List (Nat × Nat)
  | [], errs, _, edges => (errs, edges)
  | d :: rest, errs, deps, edges =>
    match type_def_deps d deps with
    | .error e => buildDeps tyname_to_node rest (errs ++ [e]) deps edges
    | .ok deps' =>
      match alookup deps' d.name with
      | some usages =>
        buildDeps tyname_to_node rest
          (errs ++ [.RecursiveTypeDefinition d.defLoc d.nameLoc usages]) deps' edges
      | none =>
        let self_node := (alookup tyname_to_node d.name).getD 0
        let r := drainDeps tyname_to_node self_node deps' [] []
        buildDeps tyname_to_node rest (errs ++ r.1) [] (edges ++ r.2)

/-- Successors of a node in the dependency graph (edge sources to targets). -/
def succs (edges : List (Nat × Nat)) (v : Nat) : List Nat :=
  (edges.filter (fun e => decide (e.1 = v))).map (·.2)

/-- One breadth step of reachability: a set together with all successors
of its members. -/
def reachStep (edges : List (Nat × Nat)) (s : List Nat) : List Nat :=
  (s ++ (s.map (succs edges)).flatten).dedup

/-- Nodes reachable from `v` in at most `k` steps. -/
def reachSet (edges : List (Nat × Nat)) : Nat → Nat → List Nat
  | 0, v => [v]
  | k + 1, v => reachStep edges (reachSet edges k v)

/-- Modelled from the spec: reachability in the dependency graph, the
relation underlying `petgraph::algo::tarjan_scc` (an external library
dependency of `lib.rs`).  Saturating `n` breadth steps covers every path
in an `n`-node graph. -/
def reaches (n : Nat) (edges : List (Nat × Nat)) (a b : Nat) : Bool :=
  (reachSet edges n a).contains b

/-- Mutual reachability: membership in the same strongly-connected
component. -/
def sameSCC (n : Nat) (edges : List (Nat × Nat)) (a b : Nat) : Bool :=
  reaches n edges a b && reaches n edges b a

/-- Greedy collection of the strongly-connected components: scan the
nodes in index order and, for each node not yet assigned, form the
component of all unassigned nodes mutually reachable with it. -/
def sccCollect (n : Nat) (edges : List (Nat × Nat)) :
    List Nat → List Nat → List (List Nat)
  | [], _ => []
  | v :: rest, assigned =>
    if v ∈ assigned then sccCollect n edges rest assigned
    else
      let comp := (List.range n).filter
        (fun w => decide (¬ w ∈ assigned) && sameSCC n edges v w)
      comp :: sccCollect n edges rest (assigned ++ comp)

/-- Choice of an emittable component: the first remaining component with
no edge into a different remaining component.  Returns the components
before it, the component, and the components after it. -/
def pickNext (edges : List (Nat × Nat)) :
    List (List Nat) → List (List Nat) →
    Option (List (List Nat) × List Nat × List (List Nat))
  | _, [] => none
  | before, c :: rest =>
    let blocked := edges.any (fun e =>
      decide (e.1 ∈ c) && decide (¬ e.2 ∈ c) &&
        (before.any (fun c' => decide (e.2 ∈ c')) ||
         rest.any (fun c' => decide (e.2 ∈ c'))))
    if blocked then pickNext edges (before ++ [c]) rest
    else some (before, c, rest)

/-- Ordering of the components: repeatedly emit a component all of whose
external edges lead to already-emitted components, yielding the reverse
topological order that `tarjan_scc` guarantees. -/
def orderComps (edges : List (Nat × Nat)) : Nat → List (List Nat) → List (List Nat)
  | 0, remaining => remaining
  | k + 1, remaining =>
    match pickNext edges [] remaining with
    | none => remaining
    | some (before, c, after) => c :: orderComps edges k (before ++ after)

/-- Modelled from the spec: `petgraph::algo::tarjan_scc` (an external
library dependency of `lib.rs`), specified at its interface: the list of
strongly-connected components of the graph, in reverse topological order
(a component is emitted before every component that reaches it). -/
def tarjan_scc (n : Nat) (edges : List (Nat × Nat)) : List (List Nat) :=
  let comps := sccCollect n edges (List.range n) []
  orderComps edges comps.length comps

/-- Translation of the group loop of `process_type_definitions` (`lib.rs`
lines 198-219): a component of more than one node yields one
`MutuallyRecursiveTypeDefinitions` error over all member names; a
singleton component is registered via `add_type_definition`, collecting
its errors.  An empty component would hit the source's `group[0]`
indexing, modelled as `none`. -/
def processGroups (fuel : Nat) (nodes : List TypeDefinition) :
    List (List Nat) → Context → List Error → Option (Context × List Error)
  | [], Γ, errs => some (Γ, errs)
  | group :: rest, Γ, errs =>
    match group with
    | [] => none
    | [i] =>
      match Context.add_type_definition fuel Γ (nodes.getD i default) with
      | none => none
      | some (Γ', .ok ()) => processGroups fuel nodes rest Γ' errs
      | some (Γ', .error es) => processGroups fuel nodes rest Γ' (errs ++ es)
    | _ :: _ :: _ =>
      let e := Error.MutuallyRecursiveTypeDefinitions
        (group.map (fun i => (nodes.getD i default).nameLoc))
      processGroups fuel nodes rest Γ (errs ++ [e])

/-- Translation of `process_type_definitions` (`lib.rs` lines 126-226):
build the nodes and redefinition errors, compute dependencies and edges,
abort if any error was collected so far, then process the
strongly-connected components in order. -/
def process_type_definitions (fuel : Nat) (Γ : Context) (m : Module) :
    Option (Context × Except (List Error) Unit) :=
  let r1 := buildNodes m.types [] [] []
  let nodes := r1.2.1
  let tyname_to_node := r1.2.2
  let r2 := buildDeps tyname_to_node m.types r1.1 [] []
  let errs := r2.1
  let edges := r2.2
  if ¬ errs.isEmpty then
    some (Γ, .error errs)
  else
    let groups := tarjan_scc nodes.length edges
    match processGroups fuel nodes groups Γ [] with
    | none => none
    | some (Γ', errs') =>
      some (Γ', if errs'.isEmpty then .ok () else .error errs')

/-- Translation of `type_check` (`lib.rs` lines 73-85): the three phases
in order, each aborting the pass when it reports errors. -/
def type_check (fuel : Nat) (Γ : Context) (m : Module) :
    Option (Context × Except (List Error) Unit) :=
  match process_type_definitions fuel Γ m with
  | none => none
  | some (Γ1, .error es) => some (Γ1, .error es)
  | some (Γ1, .ok ()) =>
    match add_function_signatures fuel Γ1 m.functions with
    | none => none
    | some (Γ2, .error es) => some (Γ2, .error es)
    | some (Γ2, .ok ()) => add_constants fuel Γ2 m.consts

/-- Check that a `distinct` wrapper's id is below a bound (other type
shapes carry no distinct id). -/
def Ty.distinctIdLt : Ty → Nat → Bool
  | .distinct d _, c => decide (d < c)
  | _, _ => true

/-- Well-formedness invariant of a context's interner state: the handles
are exactly `0, 1, …` in insertion order, no structural value is interned
twice, and every distinct id stored in the interner or in
`generic_distinct_ids` is below `distinct_counter` (so freshly allocated
ids are really fresh). -/
def WF (Γ : Context) : Prop :=
  Γ.types.map Prod.snd = List.range Γ.types.length ∧
  (Γ.types.map Prod.fst).Nodup ∧
  (∀ p ∈ Γ.types, p.1.distinctIdLt Γ.distinct_counter = true) ∧
  (∀ q ∈ Γ.generic_distinct_ids, q.2 < Γ.distinct_counter)

/-- State-effect summary of the resolution functions: they never touch
the definition tables, the signature tables or the distinct counter, and
(from a well-formed state) only extend the interner. -/
def Preserves (Γ Γ' : Context) : Prop :=
  Γ'.defs = Γ.defs ∧
  Γ'.generic_distinct_ids = Γ.generic_distinct_ids ∧
  Γ'.complete_types = Γ.complete_types ∧
  Γ'.distinct_counter = Γ.distinct_counter ∧
  Γ'.function_sigs = Γ.function_sigs ∧
  Γ'.consts = Γ.consts ∧
  (WF Γ → WF Γ' ∧ Γ.types.length ≤ Γ'.types.length ∧ ∀ p ∈ Γ.types, p ∈ Γ'.types)

/-- Classification: errors produced by type-reference resolution. -/
def Error.isResolutionError : Error → Bool
  | .UndefinedType .. => true
  | .HigherKindedGenericTypeUsed .. => true
  | .MismatchedNumberGenericArgs .. => true
  | _ => false

/-- Classification: the mutual-recursion diagnosis. -/
def Error.isMutualRec : Error → Bool
  | .MutuallyRecursiveTypeDefinitions _ => true
  | _ => false

/-- Classification: errors that only the function-signature or constant
phases can produce. -/
def Error.isSignaturePhaseError : Error → Bool
  | .FunctionRedefinition .. => true
  | .ConstantRedefinition .. => true
  | _ => false

/-- Classification: the duplicate-field diagnosis. -/
def Error.isFieldRedef : Error → Bool
  | .FieldRedefinition .. => true
  | _ => false

/-- Error list carried by a phase result (`Ok` carries none). -/
def errlist : Except (List Error) Unit → List Error
  | .ok () => []
  | .error es => es

/-- Numeric tag of an error's variant, in declaration order; used to
delimit which variants each stage of the checker can produce. -/
def Error.kindTag : Error → Nat
  | .TypeRedefinition .. => 0
  | .GenericParamaterRedefinition .. => 1
  | .RecursiveTypeDefinition .. => 2
  | .MutuallyRecursiveTypeDefinitions _ => 3
  | .UndefinedType .. => 4
  | .HigherKindedGenericTypeUsed .. => 5
  | .MismatchedNumberGenericArgs .. => 6
  | .FieldRedefinition .. => 7
  | .FunctionRedefinition .. => 8
  | .ConstantRedefinition .. => 9

/-- One state-mutating operation on a `Context`, as exposed to the
three-phase driver. -/
inductive ContextOp where
  | tydef (d : TypeDefinition)
  | fnsig (f : Function)
  | const (c : VariableDef)

/-- Application of one operation, keeping the mutated state whether or
not the operation reported errors (as the driver does). -/
def applyOp (fuel : Nat) (Γ : Context) : ContextOp → Option Context
  | .tydef d => (Context.add_type_definition fuel Γ d).map (·.1)
  | .fnsig f => (Context.add_function_signature fuel Γ f).map (·.1)
  | .const c => (Context.add_constant fuel Γ c).map (·.1)

/-- Application of a sequence of context operations from a given state. -/
def applyOps (fuel : Nat) : List ContextOp → Context → Option Context
  | [], Γ => some Γ
  | op :: ops, Γ =>
    match applyOp fuel Γ op with
    | none => none
    | some Γ' => applyOps fuel ops Γ'

/-! ### Concrete fixtures used by witnesses and counterexamples -/

/-- Shorthand for the `Bool` primitive reference. -/
def trBool : TypeReference := .primitive .bool

/-- Fixture: `A = record { x: A, y: B }` — directly self-recursive and
also mentioning `B`. -/
def defLeakA : TypeDefinition :=
  { defLoc := 10, nameLoc := 11, name := "A", generics := [],
    rhs := .record [⟨12, "x", .named 13 14 "A" [], 15⟩,
                    ⟨16, "y", .named 17 18 "B" [], 19⟩] }

/-- Fixture: `B = record { z: Bool }` — no named reference at all. -/
def defLeakB : TypeDefinition :=
  { defLoc := 20, nameLoc := 21, name := "B", generics := [],
    rhs := .record [⟨22, "z", trBool, 23⟩] }

/-- Fixture module for the dependency-leak scenario: a self-recursive
definition followed by an innocent one. -/
def mLeak : Module := ⟨[defLeakA, defLeakB], [], []⟩

/-- Fixture: `A = record { b: B }` (mutual recursion with `B`). -/
def defMutA : TypeDefinition :=
  { defLoc := 30, nameLoc := 31, name := "A", generics := [],
    rhs := .record [⟨32, "b", .named 33 34 "B" [], 35⟩] }

/-- Fixture: `B = record { a: A }` (mutual recursion with `A`). -/
def defMutB : TypeDefinition :=
  { defLoc := 36, nameLoc := 37, name := "B", generics := [],
    rhs := .record [⟨38, "a", .named 39 40 "A" [], 41⟩] }

/-- Fixture module: the mutually recursive pair. -/
def mMut : Module := ⟨[defMutA, defMutB], [], []⟩

/-- Fixture: `C = record { z: Bool }`. -/
def defDiaC : TypeDefinition :=
  { defLoc := 42, nameLoc := 43, name := "C", generics := [],
    rhs := .record [⟨44, "z", trBool, 45⟩] }

/-- Fixture: `A = record { c: C }`. -/
def defDiaA : TypeDefinition :=
  { defLoc := 46, nameLoc := 47, name := "A", generics := [],
    rhs := .record [⟨48, "c", .named 49 50 "C" [], 51⟩] }

/-- Fixture: `B = record { c: C }`. -/
def defDiaB : TypeDefinition :=
  { defLoc := 52, nameLoc := 53, name := "B", generics := [],
    rhs := .record [⟨54, "c", .named 55 56 "C" [], 57⟩] }

/-- Fixture module: the diamond `A → C ← B`, acyclic. -/
def mDiamond : Module := ⟨[defDiaA, defDiaB, defDiaC], [], []⟩

/-- Fixture: the generic definition `Pair<A, B> = record { x: A, y: B }`. -/
def defPair : TypeDefinition :=
  { defLoc := 60, nameLoc := 61, name := "Pair", generics := [(62, "A"), (63, "B")],
    rhs := .record [⟨64, "x", .named 65 66 "A" [], 67⟩,
                    ⟨68, "y", .named 69 70 "B" [], 71⟩] }

/-- Fixture: first declaration `T = Bool`. -/
def defT1 : TypeDefinition :=
  { defLoc := 100, nameLoc := 101, name := "T", generics := [], rhs := .aliasOf trBool }

/-- Fixture: second declaration `T = Bool` (same type name again). -/
def defT2 : TypeDefinition :=
  { defLoc := 102, nameLoc := 103, name := "T", generics := [], rhs := .aliasOf trBool }

/-- Fixture: `R = record { x: Bool, x: Bool }` (duplicate field). -/
def defRdup : TypeDefinition :=
  { defLoc := 104, nameLoc := 105, name := "R", generics := [],
    rhs := .record [⟨106, "x", trBool, 107⟩, ⟨108, "x", trBool, 109⟩] }

/-- Fixture: first declaration of function `f`. -/
def funF1 : Function :=
  { funcLoc := 110, nameLoc := 111, name := "f", args := [], ret_type := trBool }

/-- Fixture: second declaration of function `f` (same name again). -/
def funF2 : Function :=
  { funcLoc := 112, nameLoc := 113, name := "f", args := [], ret_type := trBool }

/-- Fixture module: duplicate type name, duplicate function name and a
duplicate record field, all in one module. -/
def mBatch : Module := ⟨[defT1, defT2, defRdup], [funF1, funF2], []⟩

/-- Fixture module: a duplicate record field plus a duplicate function
name, but no duplicate type name. -/
def mFieldFn : Module := ⟨[defRdup], [funF1, funF2], []⟩

/-- Fixture module: two functions with the same name, nothing else. -/
def mFnOnly : Module := ⟨[], [funF1, funF2], []⟩

/-- Fixture: the context state after the failed registration of `defRdup`
from the empty context. -/
def ctxRdup : Context :=
  { Context.empty with
    defs := [("R", defRdup)]
    types := [(.bool, 0)] }

/-- Fixture: the context state after registering the generic `Pair`
definition and interning `Int` and `Bool` (handles 0 and 1). -/
def ctxPair : Context :=
  { defs := [("Pair", defPair)]
    generic_distinct_ids := [("Pair", 0)]
    complete_types := []
    types := [(.int, 0), (.bool, 1)]
    distinct_counter := 1
    function_sigs := []
    consts := [] }

/-- Fixture: `ctxPair` after instantiating `Pair<Int, Bool>`: the record
body is interned at handle 2 and its `Distinct` wrapper at handle 3. -/
def ctxPairInst : Context :=
  { ctxPair with
    types := ctxPair.types ++ [(.record [("x", 0), ("y", 1)], 2), (.distinct 0 2, 3)] }

/-- Fixture: a context whose completed-types cache maps `T` to handle 0. -/
def ctxT : Context := { Context.empty with complete_types := [("T", 0)] }

/-- Fixture: `P = record { x: Bool }`. -/
def defP : TypeDefinition :=
  { defLoc := 300, nameLoc := 301, name := "P", generics := [],
    rhs := .record [⟨302, "x", trBool, 303⟩] }

/-- Fixture: `Q = record { x: Bool }` — identical field list, other name. -/
def defQ : TypeDefinition :=
  { defLoc := 304, nameLoc := 305, name := "Q", generics := [],
    rhs := .record [⟨302, "x", trBool, 303⟩] }

/-- Fixture: the context state after registering `defP` from the empty
context: `Bool` at handle 0, the record body at 1, its `Distinct` wrapper
at 2. -/
def ctxP : Context :=
  { defs := [("P", defP)]
    generic_distinct_ids := []
    complete_types := [("P", 2)]
    types := [(.bool, 0), (.record [("x", 0)], 1), (.distinct 0 1, 2)]
    distinct_counter := 1
    function_sigs := []
    consts := [] }

/-- Fixture: the context state after additionally registering `defQ`: the
record body is shared (handle 1), the new `Distinct` wrapper is at 3 with
the fresh distinct id 1. -/
def ctxPQ : Context :=
  { defs := [("Q", defQ), ("P", defP)]
    generic_distinct_ids := []
    complete_types := [("Q", 3), ("P", 2)]
    types := [(.bool, 0), (.record [("x", 0)], 1), (.distinct 0 1, 2), (.distinct 1 1, 3)]
    distinct_counter := 2
    function_sigs := []
    consts := [] }

/-- Fixture: a context in which function `f` is already registered (the
state after checking `funF1` from the empty context). -/
def ctxF1 : Context :=
  { Context.empty with
    types := [(.bool, 0)]
    function_sigs := [("f", ⟨funF1, [], 0⟩)] }

/-- Fixture: function `f` with the undefined return type `U`. -/
def funU : Function :=
  { funcLoc := 120, nameLoc := 121, name := "f", args := [],
    ret_type := .named 122 123 "U" [] }

/-- Fixture: function `g` with the undefined return type `V`. -/
def funV : Function :=
  { funcLoc := 124, nameLoc := 125, name := "g", args := [],
    ret_type := .named 126 127 "V" [] }

/-- Fixture module: no type definitions, two functions whose signatures
each contain an independent error. -/
def mTwoBadSigs : Module := ⟨[], [funU, funV], []⟩

/-! ### Association-list and interner lemmas -/

theorem alookup_mem {β : Type} {l : List (Identifier × β)} {k : Identifier} {v : β}
    (h : alookup l k = some v) : (k, v) ∈ l := by
  induction l with
  | nil => simp [alookup] at h
  | cons p rest ih =>
    obtain ⟨k1, v1⟩ := p
    by_cases hk : k1 = k
    · subst hk
      simp only [alookup, if_pos rfl] at h
      injection h with h
      subst h
      exact List.mem_cons_self _ _
    · simp only [alookup, if_neg hk] at h
      exact List.mem_cons_of_mem _ (ih h)

theorem alookup_none {β : Type} {l : List (Identifier × β)} {k : Identifier}
    (h : alookup l k = none) : ∀ p ∈ l, p.1 ≠ k := by
  induction l with
  | nil => simp
  | cons p rest ih =>
    simp only [alookup] at h
    by_cases hk : p.1 = k
    · rw [if_pos hk] at h
      cases h
    · rw [if_neg hk] at h
      intro q hq
      rcases List.mem_cons.mp hq with hq1 | hq1
      · simpa [hq1] using hk
      · exact ih h q hq1

theorem alookup_isSome_of_mem {β : Type} {l : List (Identifier × β)} {k : Identifier}
    {v : β} (h : (k, v) ∈ l) : (alookup l k).isSome := by
  cases hl : alookup l k with
  | some w => rfl
  | none => exact absurd rfl (alookup_none hl (k, v) h)

theorem alookup_mapInsert_self {β : Type} (l : List (Identifier × β)) (k : Identifier)
    (v : β) : alookup (mapInsert l k v) k = some v := by
  simp [mapInsert, alookup]

theorem alookup_mapInsert_ne {β : Type} (l : List (Identifier × β)) (k k' : Identifier)
    (v : β) (h : k' ≠ k) : alookup (mapInsert l k v) k' = alookup l k' := by
  simp only [mapInsert, alookup]
  rw [if_neg (fun he => h he.symm)]
  induction l with
  | nil => simp [alookup]
  | cons p rest ih =>
    by_cases hp : p.1 = k
    · simp only [List.filter_cons]
      rw [decide_eq_false (by simpa using hp)]
      simp only [Bool.false_eq_true, if_false]
      rw [ih]
      simp only [alookup]
      rw [if_neg (by rw [hp]; exact fun he => h he.symm)]
    · simp only [List.filter_cons]
      rw [decide_eq_true (by simpa using hp)]
      simp only [if_true]
      by_cases hpk : p.1 = k'
      · simp [alookup, hpk]
      · simp only [alookup]
        rw [if_neg hpk, if_neg hpk, ih]

theorem getByLeft_none {m : List (Ty × TypeId)} {t : Ty}
    (h : getByLeft m t = none) : ∀ p ∈ m, p.1 ≠ t := by
  induction m with
  | nil => simp
  | cons p rest ih =>
    simp only [getByLeft] at h
    by_cases hp : p.1 = t
    · rw [if_pos hp] at h
      cases h
    · rw [if_neg hp] at h
      intro q hq
      rcases List.mem_cons.mp hq with hq1 | hq1
      · simpa [hq1] using hp
      · exact ih h q hq1

theorem getByLeft_mem {m : List (Ty × TypeId)} {t : Ty} {i : TypeId}
    (h : getByLeft m t = some i) : (t, i) ∈ m := by
  induction m with
  | nil => simp [getByLeft] at h
  | cons p rest ih =>
    obtain ⟨t1, i1⟩ := p
    by_cases hp : t1 = t
    · subst hp
      simp only [getByLeft, if_pos rfl] at h
      injection h with h
      subst h
      exact List.mem_cons_self _ _
    · simp only [getByLeft, if_neg hp] at h
      exact List.mem_cons_of_mem _ (ih h)

theorem mem_getByLeft {m : List (Ty × TypeId)} {t : Ty} {i : TypeId}
    (hnd : (m.map Prod.fst).Nodup) (hm : (t, i) ∈ m) : getByLeft m t = some i := by
  induction m with
  | nil => cases hm
  | cons p rest ih =>
    simp only [List.map_cons, List.nodup_cons] at hnd
    rcases List.mem_cons.mp hm with hm1 | hm1
    · subst hm1
      simp [getByLeft]
    · have hne : p.1 ≠ t := by
        intro he
        exact hnd.1 (he ▸ (List.mem_map_of_mem Prod.fst hm1 : (t, i).1 ∈ rest.map Prod.fst))
      simp only [getByLeft, if_neg hne]
      exact ih hnd.2 hm1

theorem mem_getByRight {m : List (Ty × TypeId)} {t : Ty} {i : TypeId}
    (hnd : (m.map Prod.snd).Nodup) (hm : (t, i) ∈ m) : getByRight m i = some t := by
  induction m with
  | nil => cases hm
  | cons p rest ih =>
    simp only [List.map_cons, List.nodup_cons] at hnd
    rcases List.mem_cons.mp hm with hm1 | hm1
    · subst hm1
      simp [getByRight]
    · have hne : p.2 ≠ i := by
        intro he
        exact hnd.1 (he ▸ (List.mem_map_of_mem Prod.snd hm1 : (t, i).2 ∈ rest.map Prod.snd))
      simp only [getByRight, if_neg hne]
      exact ih hnd.2 hm1

theorem wf_snd_lt {Γ : Context} (h : WF Γ) {p : Ty × TypeId} (hp : p ∈ Γ.types) :
    p.2 < Γ.types.length := by
  have : p.2 ∈ Γ.types.map Prod.snd := List.mem_map_of_mem Prod.snd hp
  rw [h.1] at this
  exact List.mem_range.mp this

theorem wf_snd_inj {Γ : Context} (h : WF Γ) {p q : Ty × TypeId} (hp : p ∈ Γ.types)
    (hq : q ∈ Γ.types) (he : p.2 = q.2) : p = q := by
  have hnd : (Γ.types.map Prod.snd).Nodup := by
    rw [h.1]; exact List.nodup_range _
  exact List.inj_on_of_nodup_map hnd hp hq he

theorem wf_fst_inj {Γ : Context} (h : WF Γ) {p q : Ty × TypeId} (hp : p ∈ Γ.types)
    (hq : q ∈ Γ.types) (he : p.1 = q.1) : p = q :=
  List.inj_on_of_nodup_map h.2.1 hp hq he

theorem bimapInsert_fresh {m : List (Ty × TypeId)} {t : Ty} {i : TypeId}
    (h1 : ∀ p ∈ m, p.1 ≠ t) (h2 : ∀ p ∈ m, p.2 ≠ i) :
    bimapInsert m t i = m ++ [(t, i)] := by
  unfold bimapInsert
  congr 1
  apply List.filter_eq_self.mpr
  intro p hp
  simp [h1 p hp, h2 p hp]

theorem add_type_shape {Γ : Context} {t : Ty} (hwf : WF Γ)
    (hmiss : getByLeft Γ.types t = none) :
    (Γ.add_type t).1.types = Γ.types ++ [(t, Γ.types.length)] ∧
      (Γ.add_type t).2 = Γ.types.length ∧
      (Γ.add_type t).1.defs = Γ.defs ∧
      (Γ.add_type t).1.generic_distinct_ids = Γ.generic_distinct_ids ∧
      (Γ.add_type t).1.complete_types = Γ.complete_types ∧
      (Γ.add_type t).1.distinct_counter = Γ.distinct_counter ∧
      (Γ.add_type t).1.function_sigs = Γ.function_sigs ∧
      (Γ.add_type t).1.consts = Γ.consts := by
  refine ⟨?_, rfl, rfl, rfl, rfl, rfl, rfl, rfl⟩
  exact bimapInsert_fresh (getByLeft_none hmiss)
    (fun p hp => Nat.ne_of_lt (wf_snd_lt hwf hp))

theorem add_type_wf {Γ : Context} {t : Ty} (hwf : WF Γ)
    (hd : t.distinctIdLt Γ.distinct_counter = true)
    (hmiss : getByLeft Γ.types t = none) : WF (Γ.add_type t).1 := by
  obtain ⟨hty, -, -, -, -, hc, -, -⟩ := add_type_shape hwf hmiss
  refine ⟨?_, ?_, ?_, ?_⟩
  · rw [hty]
    simp only [List.map_append, List.length_append, List.map_cons, List.map_nil,
      List.length_cons, List.length_nil]
    rw [hwf.1, List.range_succ]
  · rw [hty]
    simp only [List.map_append, List.map_cons, List.map_nil]
    rw [List.nodup_append]
    refine ⟨hwf.2.1, List.nodup_singleton _, ?_⟩
    intro a ha hb
    simp only [List.mem_singleton] at hb
    subst hb
    obtain ⟨p, hp, hpa⟩ := List.mem_map.mp ha
    exact getByLeft_none hmiss p hp hpa
  · rw [hty, hc]
    intro p hp
    rcases List.mem_append.mp hp with hp | hp
    · exact hwf.2.2.1 p hp
    · simp only [List.mem_singleton] at hp
      subst hp
      exact hd
  · rw [hc]
    exact fun q hq => hwf.2.2.2 q hq

theorem preserves_refl (Γ : Context) : Preserves Γ Γ :=
  ⟨rfl, rfl, rfl, rfl, rfl, rfl, fun h => ⟨h, le_refl _, fun _ hp => hp⟩⟩

theorem preserves_trans {Γ1 Γ2 Γ3 : Context} (h12 : Preserves Γ1 Γ2)
    (h23 : Preserves Γ2 Γ3) : Preserves Γ1 Γ3 := by
  obtain ⟨a1, a2, a3, a4, a5, a6, a7⟩ := h12
  obtain ⟨b1, b2, b3, b4, b5, b6, b7⟩ := h23
  refine ⟨b1.trans a1, b2.trans a2, b3.trans a3, b4.trans a4, b5.trans a5, b6.trans a6, ?_⟩
  intro hwf
  obtain ⟨hwf2, hlen2, hmem2⟩ := a7 hwf
  obtain ⟨hwf3, hlen3, hmem3⟩ := b7 hwf2
  exact ⟨hwf3, hlen2.trans hlen3, fun p hp => hmem3 p (hmem2 p hp)⟩

theorem prim_distinctIdLt (p : PrimitiveType) (c : Nat) :
    (prim_to_type p).distinctIdLt c = true := by
  cases p <;> rfl

theorem add_or_get_type_preserves {Γ : Context} {t : Ty}
    (hd : WF Γ → Ty.distinctIdLt t Γ.distinct_counter = true) :
    Preserves Γ (Γ.add_or_get_type t).1 := by
  unfold Context.add_or_get_type
  cases hmiss : getByLeft Γ.types t with
  | some i => exact preserves_refl Γ
  | none =>
    refine ⟨rfl, rfl, rfl, rfl, rfl, rfl, ?_⟩
    intro hwf
    obtain ⟨hty, -, -, -, -, -, -, -⟩ := add_type_shape hwf hmiss
    refine ⟨add_type_wf hwf (hd hwf) hmiss, ?_, ?_⟩
    · rw [hty]; simp
    · intro p hp; rw [hty]; exact List.mem_append_left _ hp

theorem gdi_distinctIdLt {Γ : Context} {name : Identifier} {d : Nat} {i : TypeId}
    (hg : alookup Γ.generic_distinct_ids name = some d) (hwf : WF Γ) :
    Ty.distinctIdLt (.distinct d i) Γ.distinct_counter = true := by
  simp only [Ty.distinctIdLt, decide_eq_true_eq]
  exact hwf.2.2.2 _ (alookup_mem hg)

mutual

theorem ty_ref_preserves : ∀ fuel Γ subst t r,
    Context.ty_ref fuel Γ subst t = some r → Preserves Γ r.1
  | 0, Γ, subst, t, r, h => by simp [Context.ty_ref] at h
  | fuel + 1, Γ, subst, t, r, h => by
    cases t with
    | primitive p =>
      simp only [Context.ty_ref, Option.some.injEq] at h
      subst h
      exact add_or_get_type_preserves (fun _ => prim_distinctIdLt p _)
    | openArray inner =>
      simp only [Context.ty_ref] at h
      cases hrec : Context.ty_ref fuel Γ subst inner with
      | none => simp only [hrec] at h; exact Option.noConfusion h
      | some q =>
        obtain ⟨Γ', e⟩ := q
        have hp := ty_ref_preserves fuel Γ subst inner (Γ', e) hrec
        cases e with
        | error ε =>
          simp only [hrec, Option.some.injEq] at h
          subst h
          exact hp
        | ok i =>
          simp only [hrec, Option.some.injEq] at h
          subst h
          exact preserves_trans hp (add_or_get_type_preserves (fun _ => rfl))
    | array base size =>
      simp only [Context.ty_ref] at h
      cases hrec : Context.ty_ref fuel Γ subst base with
      | none => simp only [hrec] at h; exact Option.noConfusion h
      | some q =>
        obtain ⟨Γ', e⟩ := q
        have hp := ty_ref_preserves fuel Γ subst base (Γ', e) hrec
        cases e with
        | error ε =>
          simp only [hrec, Option.some.injEq] at h
          subst h
          exact hp
        | ok i =>
          simp only [hrec, Option.some.injEq] at h
          subst h
          exact preserves_trans hp (add_or_get_type_preserves (fun _ => rfl))
    | named refLoc nameLoc name gens =>
      simp only [Context.ty_ref] at h
      cases hargs : Context.ty_ref_args fuel Γ subst gens with
      | none => simp only [hargs] at h; exact Option.noConfusion h
      | some q =>
        obtain ⟨Γ', e⟩ := q
        have hp := ty_ref_args_preserves fuel Γ subst gens (Γ', e) hargs
        cases e with
        | error ε =>
          simp only [hargs, Option.some.injEq] at h
          subst h
          exact hp
        | ok gids =>
          simp only [hargs] at h
          cases hsub : alookup subst name with
          | some sid =>
            cases gids with
            | nil =>
              simp only [hsub, List.isEmpty_nil, not_true_eq_false, if_false,
                Option.some.injEq, Bool.not_true, Bool.false_eq_true] at h
              subst h
              exact hp
            | cons g gs =>
              simp only [hsub, List.isEmpty_cons, Bool.not_false, if_true,
                Option.some.injEq, Bool.false_eq_true, not_false_eq_true] at h
              subst h
              exact hp
          | none =>
            simp only [hsub] at h
            exact preserves_trans hp (ty_named_preserves fuel Γ' refLoc name gids r h)

theorem ty_ref_args_preserves : ∀ fuel Γ subst ts r,
    Context.ty_ref_args fuel Γ subst ts = some r → Preserves Γ r.1
  | 0, Γ, subst, ts, r, h => by simp [Context.ty_ref_args] at h
  | fuel + 1, Γ, subst, ts, r, h => by
    cases ts with
    | nil =>
      simp only [Context.ty_ref_args, Option.some.injEq] at h
      subst h
      exact preserves_refl Γ
    | cons t rest =>
      simp only [Context.ty_ref_args] at h
      cases hrec : Context.ty_ref fuel Γ subst t with
      | none => simp only [hrec] at h; exact Option.noConfusion h
      | some q =>
        obtain ⟨Γ', e⟩ := q
        have hp := ty_ref_preserves fuel Γ subst t (Γ', e) hrec
        cases e with
        | error ε =>
          simp only [hrec, Option.some.injEq] at h
          subst h
          exact hp
        | ok i =>
          simp only [hrec] at h
          cases hrest : Context.ty_ref_args fuel Γ' subst rest with
          | none => simp only [hrest] at h; exact Option.noConfusion h
          | some q2 =>
            obtain ⟨Γ'', e2⟩ := q2
            have hp2 := ty_ref_args_preserves fuel Γ' subst rest (Γ'', e2) hrest
            cases e2 with
            | error ε =>
              simp only [hrest, Option.some.injEq] at h
              subst h
              exact preserves_trans hp hp2
            | ok is =>
              simp only [hrest, Option.some.injEq] at h
              subst h
              exact preserves_trans hp hp2

theorem ty_named_preserves : ∀ fuel Γ loc name gens r,
    Context.ty_named fuel Γ loc name gens = some r → Preserves Γ r.1
  | 0, Γ, loc, name, gens, r, h => by simp [Context.ty_named] at h
  | fuel + 1, Γ, loc, name, gens, r, h => by
    have hfall : ∀ r' : Context × Except Error TypeId,
        (match alookup Γ.defs name with
         | none => some (Γ, .error (.UndefinedType name [loc]))
         | some d =>
           if d.generics.length ≠ gens.length then
             some (Γ, .error (.MismatchedNumberGenericArgs loc gens.length
               d.generics.length d.defLoc))
           else
             match d.rhs with
             | .distinct target =>
               match Context.ty_ref fuel Γ ((d.generics.map (·.2)).zip gens) target with
               | none => none
               | some (Γ', .error e) => some (Γ', .error e)
               | some (Γ', .ok inner) =>
                 match alookup Γ'.generic_distinct_ids name with
                 | none => none
                 | some distinct_id =>
                   let q := Γ'.add_or_get_type (.distinct distinct_id inner)
                   some (q.1, .ok q.2)
             | .aliasOf target =>
               Context.ty_ref fuel Γ ((d.generics.map (·.2)).zip gens) target
             | .record fields =>
               match alookup Γ.generic_distinct_ids name with
               | none => none
               | some distinct_id =>
                 match Context.ty_named_fields fuel Γ
                     ((d.generics.map (·.2)).zip gens) fields with
                 | none => none
                 | some (Γ', .error e) => some (Γ', .error e)
                 | some (Γ', .ok record_fields) =>
                   let q1 := Γ'.add_or_get_type (.record record_fields)
                   let q2 := q1.1.add_or_get_type (.distinct distinct_id q1.2)
                   some (q2.1, .ok q2.2) : Option (Context × Except Error TypeId)) =
          some r' → Preserves Γ r'.1 := by
      intro r' h'
      cases hdefs : alookup Γ.defs name with
      | none =>
        simp only [hdefs, Option.some.injEq] at h'
        subst h'
        exact preserves_refl Γ
      | some d =>
        simp only [hdefs] at h'
        by_cases hlen : d.generics.length ≠ gens.length
        · rw [if_pos hlen] at h'
          injection h' with h'
          subst h'
          exact preserves_refl Γ
        · rw [if_neg hlen] at h'
          cases hrhs : d.rhs with
          | distinct target =>
            simp only [hrhs] at h'
            cases hrec : Context.ty_ref fuel Γ ((d.generics.map (·.2)).zip gens) target with
            | none => simp only [hrec] at h'; exact Option.noConfusion h'
            | some q =>
              obtain ⟨Γ', e⟩ := q
              have hp := ty_ref_preserves fuel Γ _ target (Γ', e) hrec
              cases e with
              | error ε =>
                simp only [hrec, Option.some.injEq] at h'
                subst h'
                exact hp
              | ok inner =>
                simp only [hrec] at h'
                cases hg : alookup Γ'.generic_distinct_ids name with
                | none => simp only [hg] at h'; exact Option.noConfusion h'
                | some did =>
                  simp only [hg, Option.some.injEq] at h'
                  subst h'
                  exact preserves_trans hp
                    (add_or_get_type_preserves (fun hwf' => gdi_distinctIdLt hg hwf'))
          | aliasOf target =>
            simp only [hrhs] at h'
            exact ty_ref_preserves fuel Γ _ target r' h'
          | record fields =>
            simp only [hrhs] at h'
            cases hg : alookup Γ.generic_distinct_ids name with
            | none => simp only [hg] at h'; exact Option.noConfusion h'
            | some did =>
              simp only [hg] at h'
              cases hflds : Context.ty_named_fields fuel Γ
                  ((d.generics.map (·.2)).zip gens) fields with
              | none => simp only [hflds] at h'; exact Option.noConfusion h'
              | some q =>
                obtain ⟨Γ', e⟩ := q
                have hp := ty_named_fields_preserves fuel Γ _ fields (Γ', e) hflds
                cases e with
                | error ε =>
                  simp only [hflds, Option.some.injEq] at h'
                  subst h'
                  exact hp
                | ok rfields =>
                  simp only [hflds, Option.some.injEq] at h'
                  subst h'
                  have hrec1 : Preserves Γ' (Γ'.add_or_get_type (.record rfields)).1 :=
                    add_or_get_type_preserves (fun _ => rfl)
                  refine preserves_trans hp (preserves_trans hrec1
                    (add_or_get_type_preserves (fun hwf2 => ?_)))
                  have hgdi2 : alookup
                      (Γ'.add_or_get_type (.record rfields)).1.generic_distinct_ids name =
                      some did := by
                    rw [hrec1.2.1, hp.2.1]
                    exact hg
                  exact gdi_distinctIdLt hgdi2 hwf2
    simp only [Context.ty_named] at h
    cases hct : alookup Γ.complete_types name with
    | some ty =>
      cases gens with
      | nil =>
        simp only [hct, Option.some.injEq] at h
        subst h
        exact preserves_refl Γ
      | cons g gs =>
        simp only [hct] at h
        exact hfall r h
    | none =>
      simp only [hct] at h
      cases gens with
      | nil => exact hfall r h
      | cons g gs => exact hfall r h

theorem ty_named_fields_preserves : ∀ fuel Γ subst fs r,
    Context.ty_named_fields fuel Γ subst fs = some r → Preserves Γ r.1
  | 0, Γ, subst, fs, r, h => by simp [Context.ty_named_fields] at h
  | fuel + 1, Γ, subst, fs, r, h => by
    cases fs with
    | nil =>
      simp only [Context.ty_named_fields, Option.some.injEq] at h
      subst h
      exact preserves_refl Γ
    | cons f rest =>
      simp only [Context.ty_named_fields] at h
      cases hrec : Context.ty_ref fuel Γ subst f.type_ with
      | none => simp only [hrec] at h; exact Option.noConfusion h
      | some q =>
        obtain ⟨Γ', e⟩ := q
        have hp := ty_ref_preserves fuel Γ subst f.type_ (Γ', e) hrec
        cases e with
        | error ε =>
          simp only [hrec, Option.some.injEq] at h
          subst h
          exact hp
        | ok i =>
          simp only [hrec] at h
          cases hrest : Context.ty_named_fields fuel Γ' subst rest with
          | none => simp only [hrest] at h; exact Option.noConfusion h
          | some q2 =>
            obtain ⟨Γ'', e2⟩ := q2
            have hp2 := ty_named_fields_preserves fuel Γ' subst rest (Γ'', e2) hrest
            cases e2 with
            | error ε =>
              simp only [hrest, Option.some.injEq] at h
              subst h
              exact preserves_trans hp hp2
            | ok is =>
              simp only [hrest, Option.some.injEq] at h
              subst h
              exact preserves_trans hp hp2

end

theorem resolve_sig_args_preserves : ∀ args fuel Γ r,
    resolve_sig_args fuel Γ args = some r → Preserves Γ r.1 := by
  intro args
  induction args with
  | nil =>
    intro fuel Γ r h
    simp only [resolve_sig_args, Option.some.injEq] at h
    subst h
    exact preserves_refl Γ
  | cons a rest ih =>
    intro fuel Γ r h
    obtain ⟨nam, ty⟩ := a
    simp only [resolve_sig_args] at h
    cases hrec : Context.ty_ref fuel Γ [] ty with
    | none => simp only [hrec] at h; exact Option.noConfusion h
    | some q =>
      obtain ⟨Γ', e⟩ := q
      have hp := ty_ref_preserves fuel Γ [] ty (Γ', e) hrec
      cases e with
      | error ε =>
        simp only [hrec, Option.some.injEq] at h
        subst h
        exact hp
      | ok i =>
        simp only [hrec] at h
        cases hrest : resolve_sig_args fuel Γ' rest with
        | none => simp only [hrest] at h; exact Option.noConfusion h
        | some q2 =>
          obtain ⟨Γ'', e2⟩ := q2
          have hp2 := ih fuel Γ' (Γ'', e2) hrest
          cases e2 with
          | error ε =>
            simp only [hrest, Option.some.injEq] at h
            subst h
            exact preserves_trans hp hp2
          | ok is =>
            simp only [hrest, Option.some.injEq] at h
            subst h
            exact preserves_trans hp hp2

theorem add_record_fields_preserves : ∀ fs fuel Γ def_loc seen errs fields r,
    add_record_fields fuel Γ def_loc fs seen errs fields = some r →
    Preserves Γ r.1 := by
  intro fs
  induction fs with
  | nil =>
    intro fuel Γ def_loc seen errs fields r h
    simp only [add_record_fields, Option.some.injEq] at h
    subst h
    exact preserves_refl Γ
  | cons f rest ih =>
    intro fuel Γ def_loc seen errs fields r h
    simp only [add_record_fields] at h
    cases hrec : Context.ty_ref fuel Γ [] f.type_ with
    | none => simp only [hrec] at h; exact Option.noConfusion h
    | some q =>
      obtain ⟨Γ', e⟩ := q
      have hp := ty_ref_preserves fuel Γ [] f.type_ (Γ', e) hrec
      cases e with
      | error ε =>
        simp only [hrec] at h
        exact preserves_trans hp (ih fuel Γ' def_loc _ _ _ r h)
      | ok i =>
        simp only [hrec] at h
        exact preserves_trans hp (ih fuel Γ' def_loc _ _ _ r h)

/-! ### Claim theorems -/

/-- Claim C9 — idempotent caching: resolving a named reference whose name
is cached in `complete_types` (which holds exactly the registered
non-generic definitions) succeeds with the cached handle and leaves the
context untouched; hence a second resolution with no intervening
registration returns the identical `TypeId` and the interner size is
unchanged. -/
theorem C9_idempotent_caching : ∀ k Γ refLoc nameLoc name i,
    alookup Γ.complete_types name = some i →
    ∃ Γ1, Context.ty_ref (k + 2) Γ [] (.named refLoc nameLoc name []) =
        some (Γ1, .ok i) ∧
      Context.ty_ref (k + 2) Γ1 [] (.named refLoc nameLoc name []) =
        some (Γ1, .ok i) ∧
      Γ1.types.length = Γ.types.length := by
  intro k Γ refLoc nameLoc name i h
  refine ⟨Γ, ?_, ?_, rfl⟩ <;>
    simp only [Context.ty_ref, Context.ty_ref_args, alookup, Context.ty_named, h]

/-- Witness for C9 at a concrete context caching `T ↦ 0`. -/
theorem C9_witness :
    alookup ctxT.complete_types "T" = some 0 ∧
    ∃ Γ1, Context.ty_ref 2 ctxT [] (.named 5 6 "T" []) = some (Γ1, .ok 0) ∧
      Context.ty_ref 2 Γ1 [] (.named 5 6 "T" []) = some (Γ1, .ok 0) ∧
      Γ1.types.length = ctxT.types.length :=
  ⟨rfl, C9_idempotent_caching 0 ctxT 5 6 "T" 0 rfl⟩

/-- Claim C10 — registration atomicity: whenever
`Context::add_function_signature` (resp. `Context::add_constant`) returns
an error, the `function_sigs` (resp. `consts`) table is exactly as before
the call — in particular a redefinition keeps the previously registered
entry unchanged. -/
theorem C10_registration_atomicity :
    (∀ fuel Γ f Γ' e, Context.add_function_signature fuel Γ f = some (Γ', .error e) →
      Γ'.function_sigs = Γ.function_sigs) ∧
    (∀ fuel Γ c Γ' e, Context.add_constant fuel Γ c = some (Γ', .error e) →
      Γ'.consts = Γ.consts) := by
  constructor
  · intro fuel Γ f Γ' e h
    simp only [Context.add_function_signature] at h
    cases hret : Context.ty_ref fuel Γ [] f.ret_type with
    | none => simp only [hret] at h; exact Option.noConfusion h
    | some q =>
      obtain ⟨Γ1, e1⟩ := q
      have hp1 := ty_ref_preserves fuel Γ [] f.ret_type (Γ1, e1) hret
      cases e1 with
      | error ε =>
        simp only [hret, Option.some.injEq, Prod.mk.injEq] at h
        obtain ⟨h1, -⟩ := h
        rw [← h1]
        exact hp1.2.2.2.2.1
      | ok ret =>
        simp only [hret] at h
        cases hargs : resolve_sig_args fuel Γ1 f.args with
        | none => simp only [hargs] at h; exact Option.noConfusion h
        | some q2 =>
          obtain ⟨Γ2, e2⟩ := q2
          have hp2 := resolve_sig_args_preserves f.args fuel Γ1 (Γ2, e2) hargs
          cases e2 with
          | error ε =>
            simp only [hargs, Option.some.injEq, Prod.mk.injEq] at h
            obtain ⟨h1, -⟩ := h
            rw [← h1]
            exact hp2.2.2.2.2.1.trans hp1.2.2.2.2.1
          | ok args =>
            simp only [hargs] at h
            cases hlook : alookup Γ2.function_sigs f.name with
            | none =>
              simp only [hlook, Option.some.injEq, Prod.mk.injEq] at h
              obtain ⟨-, h2⟩ := h
              exact Except.noConfusion h2
            | some prev =>
              simp only [hlook, Option.some.injEq, Prod.mk.injEq] at h
              obtain ⟨h1, -⟩ := h
              rw [← h1]
              exact hp2.2.2.2.2.1.trans hp1.2.2.2.2.1
  · intro fuel Γ c Γ' e h
    simp only [Context.add_constant] at h
    cases hret : Context.ty_ref fuel Γ [] c.type_ with
    | none => simp only [hret] at h; exact Option.noConfusion h
    | some q =>
      obtain ⟨Γ1, e1⟩ := q
      have hp1 := ty_ref_preserves fuel Γ [] c.type_ (Γ1, e1) hret
      cases e1 with
      | error ε =>
        simp only [hret, Option.some.injEq, Prod.mk.injEq] at h
        obtain ⟨h1, -⟩ := h
        rw [← h1]
        exact hp1.2.2.2.2.2.1
      | ok ty =>
        simp only [hret] at h
        cases hlook : alookup Γ1.consts c.name with
        | none =>
          simp only [hlook, Option.some.injEq, Prod.mk.injEq] at h
          obtain ⟨-, h2⟩ := h
          exact Except.noConfusion h2
        | some prev =>
          simp only [hlook, Option.some.injEq, Prod.mk.injEq] at h
          obtain ⟨h1, -⟩ := h
          rw [← h1]
          exact hp1.2.2.2.2.2.1

/-- Witness for C10: a second declaration of function `f` fails with a
`FunctionRedefinition` and leaves the signature table unchanged. -/
theorem C10_witness :
    Context.add_function_signature 10 ctxF1 funF2 =
      some (ctxF1, .error (.FunctionRedefinition 111 110 113 112)) ∧
    ctxF1.function_sigs = ctxF1.function_sigs :=
  ⟨rfl, C10_registration_atomicity.1 10 ctxF1 funF2 ctxF1
    (.FunctionRedefinition 111 110 113 112) rfl⟩

/-- Claim C3 (code-bug evidence) — the shared dependency map leaks: in
`mLeak`, definition `A = record { x: A, y: B }` is correctly reported
self-recursive, but because its iteration `continue`s without draining
the shared map, the following definition `B = record { z: Bool }` —
whose own dependency set is empty, as the second conjunct shows — is
also reported `RecursiveTypeDefinition` (with the usage location of the
`B` occurrence inside `A`'s body). -/
theorem C3_self_recursion_dep_leak :
    process_type_definitions 10 Context.empty mLeak =
      some (Context.empty, .error [.RecursiveTypeDefinition 10 11 [14],
        .RecursiveTypeDefinition 20 21 [18]]) ∧
    type_def_deps defLeakB [] = .ok [] :=
  ⟨rfl, rfl⟩

/-- Counterexample to claim C5 as stated: on a module with a duplicate
type name, a duplicate function name and a duplicate record field,
`type_check` returns only the `TypeRedefinition` — the error list
contains neither a `FunctionRedefinition` nor a `FieldRedefinition`,
so it does not contain the claimed three distinct errors. -/
theorem C5_counterexample :
    type_check 10 Context.empty mBatch =
      some (Context.empty, .error [.TypeRedefinition 101 103 102]) ∧
    [Error.TypeRedefinition 101 103 102].filter Error.isSignaturePhaseError = [] ∧
    [Error.TypeRedefinition 101 103 102].filter Error.isFieldRedef = [] :=
  ⟨rfl, rfl, rfl⟩

/-- Claim C5 (amended) — staged redefinition reporting: the batch module
yields exactly the `TypeRedefinition`; with the duplicate type name
removed the same call yields exactly the `FieldRedefinition`; and with an
error-free type phase it yields exactly the `FunctionRedefinition`. -/
theorem C5_redefinition_staging :
    type_check 10 Context.empty mBatch =
      some (Context.empty, .error [.TypeRedefinition 101 103 102]) ∧
    type_check 10 Context.empty mFieldFn =
      some (ctxRdup, .error [.FieldRedefinition 106 108 104]) ∧
    type_check 10 Context.empty mFnOnly =
      some (ctxF1, .error [.FunctionRedefinition 111 110 113 112]) :=
  ⟨rfl, rfl, rfl⟩

/-- Length of the handle list produced by resolving a generic-argument
list: one handle per argument. -/
theorem ty_ref_args_ok_length : ∀ fuel Γ subst ts Γ' rids,
    Context.ty_ref_args fuel Γ subst ts = some (Γ', .ok rids) →
    rids.length = ts.length
  | 0, Γ, subst, ts, Γ', rids, h => by simp [Context.ty_ref_args] at h
  | fuel + 1, Γ, subst, [], Γ', rids, h => by
    simp only [Context.ty_ref_args, Option.some.injEq, Prod.mk.injEq] at h
    obtain ⟨-, h2⟩ := h
    injection h2 with h2
    simp [← h2]
  | fuel + 1, Γ, subst, t :: rest, Γ', rids, h => by
    simp only [Context.ty_ref_args] at h
    cases hrec : Context.ty_ref fuel Γ subst t with
    | none => simp only [hrec] at h; exact Option.noConfusion h
    | some q =>
      obtain ⟨Γ1, e⟩ := q
      cases e with
      | error ε =>
        simp only [hrec, Option.some.injEq, Prod.mk.injEq] at h
        obtain ⟨-, h2⟩ := h
        exact Except.noConfusion h2
      | ok i =>
        simp only [hrec] at h
        cases hrest : Context.ty_ref_args fuel Γ1 subst rest with
        | none => simp only [hrest] at h; exact Option.noConfusion h
        | some q2 =>
          obtain ⟨Γ2, e2⟩ := q2
          cases e2 with
          | error ε =>
            simp only [hrest, Option.some.injEq, Prod.mk.injEq] at h
            obtain ⟨-, h2⟩ := h
            exact Except.noConfusion h2
          | ok is =>
            simp only [hrest, Option.some.injEq, Prod.mk.injEq] at h
            obtain ⟨-, h2⟩ := h
            injection h2 with h2
            have := ty_ref_args_ok_length fuel Γ1 subst rest Γ2 is hrest
            simp [← h2, this]

/-- Claim C7 — higher-kinded rejection: when a `Named` reference's name is
a key of the active substitution, resolution returns the substituted
handle unchanged (context untouched) if the reference supplies no generic
arguments, and fails with `HigherKindedGenericTypeUsed` exactly when it
supplies a non-empty argument list (given that resolving that list
succeeds — the source resolves the arguments first); during validation of
a generic definition the same dichotomy holds for a declared parameter
name, unconditionally. -/
theorem C7_higher_kinded_rejection :
    (∀ fuel Γ subst refLoc nameLoc name sid,
      alookup subst name = some sid →
      Context.ty_ref (fuel + 2) Γ subst (.named refLoc nameLoc name []) =
        some (Γ, .ok sid)) ∧
    (∀ fuel Γ subst refLoc nameLoc name args sid Γ' rids,
      alookup subst name = some sid → args ≠ [] →
      Context.ty_ref_args (fuel + 1) Γ subst args = some (Γ', .ok rids) →
      Context.ty_ref (fuel + 2) Γ subst (.named refLoc nameLoc name args) =
        some (Γ', .error (.HigherKindedGenericTypeUsed refLoc name))) ∧
    (∀ Γ generics refLoc nameLoc name applied,
      name ∈ generics →
      Context.ty_validate_ref Γ generics (.named refLoc nameLoc name applied) =
        if applied.isEmpty then .ok ()
        else .error (.HigherKindedGenericTypeUsed refLoc name)) := by
  refine ⟨?_, ?_, ?_⟩
  · intro fuel Γ subst refLoc nameLoc name sid h
    simp only [Context.ty_ref, Context.ty_ref_args, h]
    simp
  · intro fuel Γ subst refLoc nameLoc name args sid Γ' rids h hne hargs
    have hlen := ty_ref_args_ok_length (fuel + 1) Γ subst args Γ' rids hargs
    have hrne : rids ≠ [] := by
      intro hr
      rw [hr] at hlen
      exact hne (List.eq_nil_of_length_eq_zero hlen.symm)
    simp only [Context.ty_ref, hargs, h]
    cases rids with
    | nil => exact absurd rfl hrne
    | cons a as =>
      simp
  · intro Γ generics refLoc nameLoc name applied h
    cases applied with
    | nil => simp [Context.ty_validate_ref, h]
    | cons a as => simp [Context.ty_validate_ref, h]

/-- Witness for C7: a substituted parameter `T ↦ 7` used with no
arguments resolves to handle 7; used with one (resolvable) argument it is
rejected as higher-kinded. -/
theorem C7_witness :
    Context.ty_ref 2 Context.empty [("T", 7)] (.named 1 2 "T" []) =
      some (Context.empty, .ok 7) ∧
    Context.ty_ref 3 Context.empty [("T", 7)] (.named 1 2 "T" [trBool]) =
      some ({ Context.empty with types := [(.bool, 0)] },
        .error (.HigherKindedGenericTypeUsed 1 "T")) :=
  ⟨C7_higher_kinded_rejection.1 0 Context.empty [("T", 7)] 1 2 "T" 7 rfl,
   C7_higher_kinded_rejection.2.1 1 Context.empty [("T", 7)] 1 2 "T" [trBool] 7
     { Context.empty with types := [(.bool, 0)] } [0] rfl (by simp) rfl⟩

/-- Claim C6 — generic arity: resolving a `Named` reference to a
registered definition (the name not being substituted, the argument
handles already resolved) fails with `MismatchedNumberGenericArgs`
carrying the given and expected counts whenever they disagree; the same
holds during validation of a generic definition body; and with matching
counts, instantiating the two-parameter generic record `Pair` with
`Int, Bool` succeeds, the instantiated record's fields being the body's
field references with each parameter replaced by the corresponding
argument handle. -/
theorem C6_generic_arity :
    (∀ fuel Γ loc name gens d,
      alookup Γ.defs name = some d →
      d.generics.length ≠ gens.length →
      (gens = [] → alookup Γ.complete_types name = none) →
      Context.ty_named (fuel + 1) Γ loc name gens =
        some (Γ, .error (.MismatchedNumberGenericArgs loc gens.length
          d.generics.length d.defLoc))) ∧
    (∀ Γ generics refLoc nameLoc name applied d,
      ¬ name ∈ generics →
      alookup Γ.defs name = some d →
      d.generics.length ≠ applied.length →
      Context.ty_validate_ref Γ generics (.named refLoc nameLoc name applied) =
        .error (.MismatchedNumberGenericArgs refLoc applied.length
          d.generics.length d.defLoc)) ∧
    (Context.ty_named 10 ctxPair 99 "Pair" [0, 1] = some (ctxPairInst, .ok 3) ∧
      getByRight ctxPairInst.types 2 = some (.record [("x", 0), ("y", 1)])) := by
  refine ⟨?_, ?_, rfl, rfl⟩
  · intro fuel Γ loc name gens d hdefs hlen hct
    cases hctv : alookup Γ.complete_types name with
    | some ty =>
      cases gens with
      | nil => exact absurd (hct rfl) (by simp [hctv])
      | cons g gs =>
        simp only [Context.ty_named, hctv, hdefs, if_pos hlen]
    | none =>
      cases gens with
      | nil => simp only [Context.ty_named, hctv, hdefs, if_pos hlen]
      | cons g gs => simp only [Context.ty_named, hctv, hdefs, if_pos hlen]
  · intro Γ generics refLoc nameLoc name applied d hgen hdefs hlen
    simp only [Context.ty_validate_ref, if_neg hgen, hdefs, if_pos hlen]

/-- Witness for C6: applying `Pair` to a single argument is rejected with
given count 1 and expected count 2. -/
theorem C6_witness :
    Context.ty_named 10 ctxPair 99 "Pair" [0] =
      some (ctxPair, .error (.MismatchedNumberGenericArgs 99 1 2 60)) :=
  C6_generic_arity.1 9 ctxPair 99 "Pair" [0] defPair rfl (by decide)
    (fun _ => rfl)

/-! ### Well-formedness through the registration operations -/

theorem WF_empty : WF Context.empty :=
  ⟨rfl, List.nodup_nil, by simp [Context.empty], by simp [Context.empty]⟩

theorem getByLeft_none_of {m : List (Ty × TypeId)} {t : Ty}
    (h : ∀ p ∈ m, p.1 ≠ t) : getByLeft m t = none := by
  induction m with
  | nil => rfl
  | cons p rest ih =>
    simp only [getByLeft, if_neg (h p (List.mem_cons_self p rest))]
    exact ih (fun q hq => h q (List.mem_cons_of_mem p hq))

theorem getByLeft_append_self {m : List (Ty × TypeId)} {t : Ty} {i : TypeId}
    (h : ∀ p ∈ m, p.1 ≠ t) : getByLeft (m ++ [(t, i)]) t = some i := by
  induction m with
  | nil => simp [getByLeft]
  | cons p rest ih =>
    simp only [List.cons_append, getByLeft,
      if_neg (h p (List.mem_cons_self p rest))]
    exact ih (fun q hq => h q (List.mem_cons_of_mem p hq))

theorem getByLeft_append_ne {m : List (Ty × TypeId)} {t t2 : Ty} {i : TypeId}
    (hne : t2 ≠ t) : getByLeft (m ++ [(t, i)]) t2 = getByLeft m t2 := by
  have hne2 : ¬ t = t2 := fun he => hne he.symm
  induction m with
  | nil => simp [getByLeft, hne2]
  | cons p rest ih =>
    by_cases hp : p.1 = t2
    · simp [getByLeft, hp]
    · simp only [List.cons_append, getByLeft, if_neg hp]
      exact ih

theorem fresh_distinct_miss {Γ : Context} (hwf : WF Γ) (inner : TypeId) :
    getByLeft Γ.types (.distinct Γ.distinct_counter inner) = none := by
  apply getByLeft_none_of
  intro p hp he
  have hd := hwf.2.2.1 p hp
  rw [he] at hd
  simp only [Ty.distinctIdLt, decide_eq_true_eq] at hd
  exact lt_irrefl _ hd

theorem next_distinct_id_wf {Γ : Context} (hwf : WF Γ) :
    WF (Γ.next_distinct_id).1 := by
  refine ⟨hwf.1, hwf.2.1, ?_, ?_⟩
  · intro p hp
    have := hwf.2.2.1 p hp
    cases hty : p.1 with
    | distinct d j =>
      rw [hty] at this
      simp only [Ty.distinctIdLt, decide_eq_true_eq] at this ⊢
      exact Nat.lt_succ_of_lt this
    | _ => simp [Ty.distinctIdLt, hty]
  · intro q hq
    exact Nat.lt_succ_of_lt (hwf.2.2.2 q hq)

theorem mem_mapInsert {β : Type} {l : List (Identifier × β)} {k : Identifier}
    {v : β} {q : Identifier × β} (h : q ∈ mapInsert l k v) :
    q = (k, v) ∨ q ∈ l := by
  rcases List.mem_cons.mp h with h1 | h1
  · exact Or.inl h1
  · exact Or.inr (List.mem_of_mem_filter h1)

theorem next_then_add_distinct {Γ : Context} (hwf : WF Γ) (inner : TypeId) :
    WF ((Γ.next_distinct_id).1.add_type (.distinct Γ.distinct_counter inner)).1 ∧
    ((Γ.next_distinct_id).1.add_type (.distinct Γ.distinct_counter inner)).1.types =
      Γ.types ++ [(.distinct Γ.distinct_counter inner, Γ.types.length)] ∧
    ((Γ.next_distinct_id).1.add_type (.distinct Γ.distinct_counter inner)).2 =
      Γ.types.length ∧
    ((Γ.next_distinct_id).1.add_type
        (.distinct Γ.distinct_counter inner)).1.distinct_counter =
      Γ.distinct_counter + 1 := by
  have hwf1 : WF (Γ.next_distinct_id).1 := next_distinct_id_wf hwf
  have hmiss : getByLeft (Γ.next_distinct_id).1.types
      (.distinct Γ.distinct_counter inner) = none :=
    fresh_distinct_miss hwf inner
  obtain ⟨hty, hid, -, -, -, hc, -, -⟩ := add_type_shape hwf1 hmiss
  refine ⟨?_, hty, hid, rfl⟩
  apply add_type_wf hwf1 ?_ hmiss
  simp [Ty.distinctIdLt, Context.next_distinct_id]

theorem gdi_insert_bump_wf {Γ : Context} (hwf : WF Γ) (name : Identifier) :
    WF { (Γ.next_distinct_id).1 with
      generic_distinct_ids :=
        mapInsert (Γ.next_distinct_id).1.generic_distinct_ids name
          Γ.distinct_counter } := by
  have hwf1 := next_distinct_id_wf hwf
  refine ⟨hwf1.1, hwf1.2.1, hwf1.2.2.1, ?_⟩
  intro q hq
  rcases mem_mapInsert hq with h1 | h1
  · rw [h1]
    exact Nat.lt_succ_self _
  · exact hwf1.2.2.2 q h1

theorem add_type_definition_wf : ∀ fuel Γ d r,
    Context.add_type_definition fuel Γ d = some r → WF Γ → WF r.1 := by
  intro fuel Γ d r h hwf
  simp only [Context.add_type_definition] at h
  set Γ0 : Context := { Γ with defs := mapInsert Γ.defs d.name d } with hΓ0
  have hwf0 : WF Γ0 := hwf
  by_cases hgen : d.generics.isEmpty
  · rw [if_pos hgen] at h
    cases hrhs : d.rhs with
    | distinct target =>
      rw [hrhs] at h
      cases hrec : Context.ty_ref fuel Γ0 [] target with
      | none => simp only [hrec] at h; exact Option.noConfusion h
      | some q =>
        obtain ⟨Γ', e⟩ := q
        have hwf' := ((ty_ref_preserves fuel Γ0 [] target (Γ', e) hrec).2.2.2.2.2.2
          hwf0).1
        cases e with
        | error ε =>
          simp only [hrec, Option.some.injEq] at h
          subst h
          exact hwf'
        | ok alias_id =>
          simp only [hrec, Option.some.injEq] at h
          subst h
          exact (next_then_add_distinct hwf' alias_id).1
    | aliasOf target =>
      rw [hrhs] at h
      cases hrec : Context.ty_ref fuel Γ0 [] target with
      | none => simp only [hrec] at h; exact Option.noConfusion h
      | some q =>
        obtain ⟨Γ', e⟩ := q
        have hwf' := ((ty_ref_preserves fuel Γ0 [] target (Γ', e) hrec).2.2.2.2.2.2
          hwf0).1
        cases e with
        | error ε =>
          simp only [hrec, Option.some.injEq] at h
          subst h
          exact hwf'
        | ok ty_id =>
          simp only [hrec, Option.some.injEq] at h
          subst h
          exact hwf'
    | record field_defs =>
      rw [hrhs] at h
      cases hflds : add_record_fields fuel Γ0 d.defLoc field_defs [] [] [] with
      | none => simp only [hflds] at h; exact Option.noConfusion h
      | some q =>
        obtain ⟨Γ', errs, fields⟩ := q
        have hwf' := ((add_record_fields_preserves field_defs fuel Γ0 d.defLoc
          [] [] [] _ hflds).2.2.2.2.2.2 hwf0).1
        cases herr : errs.isEmpty with
        | true =>
          simp only [hflds] at h
          rw [herr] at h
          rw [if_neg (by simp)] at h
          injection h with h
          rw [← h]
          have hrec1 : Preserves Γ' (Γ'.add_or_get_type (.record fields)).1 :=
            add_or_get_type_preserves (fun _ => rfl)
          have hwf'' := (hrec1.2.2.2.2.2.2 hwf').1
          exact (next_then_add_distinct hwf''
            (Γ'.add_or_get_type (.record fields)).2).1
        | false =>
          simp only [hflds] at h
          rw [herr] at h
          rw [if_pos (by simp)] at h
          injection h with h
          rw [← h]
          exact hwf'
  · rw [if_neg hgen] at h
    cases hrhs : d.rhs with
    | distinct target =>
      simp only [hrhs] at h
      injection h with h
      rw [← h]
      exact gdi_insert_bump_wf hwf0 d.name
    | aliasOf target =>
      simp only [hrhs] at h
      injection h with h
      rw [← h]
      exact hwf0
    | record field_defs =>
      simp only [hrhs] at h
      injection h with h
      rw [← h]
      exact gdi_insert_bump_wf hwf0 d.name

theorem add_function_signature_wf : ∀ fuel Γ f r,
    Context.add_function_signature fuel Γ f = some r → WF Γ → WF r.1 := by
  intro fuel Γ f r h hwf
  simp only [Context.add_function_signature] at h
  cases hret : Context.ty_ref fuel Γ [] f.ret_type with
  | none => simp only [hret] at h; exact Option.noConfusion h
  | some q =>
    obtain ⟨Γ1, e1⟩ := q
    have hwf1 := ((ty_ref_preserves fuel Γ [] f.ret_type (Γ1, e1) hret).2.2.2.2.2.2
      hwf).1
    cases e1 with
    | error ε =>
      simp only [hret, Option.some.injEq] at h
      subst h
      exact hwf1
    | ok ret =>
      simp only [hret] at h
      cases hargs : resolve_sig_args fuel Γ1 f.args with
      | none => simp only [hargs] at h; exact Option.noConfusion h
      | some q2 =>
        obtain ⟨Γ2, e2⟩ := q2
        have hwf2 := ((resolve_sig_args_preserves f.args fuel Γ1 (Γ2, e2)
          hargs).2.2.2.2.2.2 hwf1).1
        cases e2 with
        | error ε =>
          simp only [hargs, Option.some.injEq] at h
          subst h
          exact hwf2
        | ok args =>
          simp only [hargs] at h
          cases hlook : alookup Γ2.function_sigs f.name with
          | none =>
            simp only [hlook, Option.some.injEq] at h
            subst h
            exact hwf2
          | some prev =>
            simp only [hlook, Option.some.injEq] at h
            subst h
            exact hwf2

theorem add_constant_wf : ∀ fuel Γ c r,
    Context.add_constant fuel Γ c = some r → WF Γ → WF r.1 := by
  intro fuel Γ c r h hwf
  simp only [Context.add_constant] at h
  cases hret : Context.ty_ref fuel Γ [] c.type_ with
  | none => simp only [hret] at h; exact Option.noConfusion h
  | some q =>
    obtain ⟨Γ1, e1⟩ := q
    have hwf1 := ((ty_ref_preserves fuel Γ [] c.type_ (Γ1, e1) hret).2.2.2.2.2.2
      hwf).1
    cases e1 with
    | error ε =>
      simp only [hret, Option.some.injEq] at h
      subst h
      exact hwf1
    | ok ty =>
      simp only [hret] at h
      cases hlook : alookup Γ1.consts c.name with
      | none =>
        simp only [hlook, Option.some.injEq] at h
        subst h
        exact hwf1
      | some prev =>
        simp only [hlook, Option.some.injEq] at h
        subst h
        exact hwf1

theorem applyOp_wf {fuel : Nat} {Γ Γ' : Context} {op : ContextOp}
    (h : applyOp fuel Γ op = some Γ') (hwf : WF Γ) : WF Γ' := by
  cases op with
  | tydef d =>
    simp only [applyOp, Option.map_eq_some'] at h
    obtain ⟨r, hr, hr2⟩ := h
    rw [← hr2]
    exact add_type_definition_wf fuel Γ d r hr hwf
  | fnsig f =>
    simp only [applyOp, Option.map_eq_some'] at h
    obtain ⟨r, hr, hr2⟩ := h
    rw [← hr2]
    exact add_function_signature_wf fuel Γ f r hr hwf
  | const c =>
    simp only [applyOp, Option.map_eq_some'] at h
    obtain ⟨r, hr, hr2⟩ := h
    rw [← hr2]
    exact add_constant_wf fuel Γ c r hr hwf

theorem applyOps_wf : ∀ ops fuel Γ Γ',
    applyOps fuel ops Γ = some Γ' → WF Γ → WF Γ' := by
  intro ops
  induction ops with
  | nil =>
    intro fuel Γ Γ' h hwf
    simp only [applyOps, Option.some.injEq] at h
    exact h ▸ hwf
  | cons op rest ih =>
    intro fuel Γ Γ' h hwf
    simp only [applyOps] at h
    cases hop : applyOp fuel Γ op with
    | none => simp only [hop] at h; exact Option.noConfusion h
    | some Γ1 =>
      simp only [hop] at h
      exact ih fuel Γ1 Γ' h (applyOp_wf hop hwf)

theorem addOrGet_pair_iff {Γ : Context} (hwf : WF Γ) (t1 t2 : Ty) :
    ((Γ.add_or_get_type t1).1.add_or_get_type t2).2 = (Γ.add_or_get_type t1).2 ↔
      t2 = t1 := by
  cases h1 : getByLeft Γ.types t1 with
  | some i1 =>
    have e1 : Γ.add_or_get_type t1 = (Γ, i1) := by
      simp [Context.add_or_get_type, h1]
    rw [e1]
    cases h2 : getByLeft Γ.types t2 with
    | some i2 =>
      have e2 : Context.add_or_get_type Γ t2 = (Γ, i2) := by
        simp [Context.add_or_get_type, h2]
      simp only [e2]
      constructor
      · intro he
        have hm1 := getByLeft_mem h1
        have hm2 := getByLeft_mem h2
        have := wf_snd_inj hwf hm2 hm1 he
        exact congrArg Prod.fst this
      · intro he
        subst he
        rw [h1] at h2
        injection h2 with h2
        exact h2.symm
    | none =>
      have e2 : Context.add_or_get_type Γ t2 = Γ.add_type t2 := by
        simp [Context.add_or_get_type, h2]
      simp only [e2]
      obtain ⟨-, hid, -, -, -, -, -, -⟩ := add_type_shape hwf h2
      rw [hid]
      refine iff_of_false ?_ ?_
      · intro he
        exact absurd (he ▸ wf_snd_lt hwf (getByLeft_mem h1) :
          Γ.types.length < Γ.types.length) (lt_irrefl _)
      · intro he
        subst he
        rw [h1] at h2
        exact Option.noConfusion h2
  | none =>
    have e1 : Γ.add_or_get_type t1 = Γ.add_type t1 := by
      simp [Context.add_or_get_type, h1]
    obtain ⟨hty1, hid1, -, -, -, -, -, -⟩ := add_type_shape hwf h1
    rw [e1, hid1]
    by_cases he : t2 = t1
    · have hlook : getByLeft (Γ.add_type t1).1.types t2 = some Γ.types.length := by
        rw [hty1, he]
        exact getByLeft_append_self (getByLeft_none h1)
      have e2 : (Γ.add_type t1).1.add_or_get_type t2 =
          ((Γ.add_type t1).1, Γ.types.length) := by
        simp [Context.add_or_get_type, hlook]
      rw [e2]
      simp [he]
    · have hlook : getByLeft (Γ.add_type t1).1.types t2 = getByLeft Γ.types t2 := by
        rw [hty1]
        exact getByLeft_append_ne he
      cases h3 : getByLeft Γ.types t2 with
      | some i2 =>
        have e2 : (Γ.add_type t1).1.add_or_get_type t2 = ((Γ.add_type t1).1, i2) := by
          simp [Context.add_or_get_type, hlook, h3]
        rw [e2]
        refine iff_of_false ?_ he
        intro hc
        exact absurd (hc ▸ wf_snd_lt hwf (getByLeft_mem h3) :
          Γ.types.length < Γ.types.length) (lt_irrefl _)
      | none =>
        have hlook2 : getByLeft (Γ.add_type t1).1.types t2 = none := by
          rw [hlook]
          exact h3
        have e0 : (Γ.add_type t1).1.add_or_get_type t2 =
            (Γ.add_type t1).1.add_type t2 := by
          simp [Context.add_or_get_type, hlook2]
        rw [e0]
        have e2 : ((Γ.add_type t1).1.add_type t2).2 =
            (Γ.add_type t1).1.types.length := rfl
        rw [e2, hty1]
        refine iff_of_false ?_ he
        simp


/-- Claim C1 — interner canonicalization: in any context reachable by a
sequence of registration operations from the empty context, the interner
is a bijection (two interned pairs agree on the structural value iff they
agree on the handle); interning any two types in sequence yields the same
handle iff the types are structurally equal; and `add_or_get_type` on a
type structurally equal to an interned one returns the existing handle
with the context — in particular the interner — unchanged. -/
theorem C1_interner_canonicalization : ∀ fuel ops Γ',
    applyOps fuel ops Context.empty = some Γ' →
    (∀ p ∈ Γ'.types, ∀ q ∈ Γ'.types, (p.1 = q.1 ↔ p.2 = q.2)) ∧
    (∀ t1 t2 : Ty,
      (((Γ'.add_or_get_type t1).1.add_or_get_type t2).2 =
          (Γ'.add_or_get_type t1).2 ↔ t2 = t1)) ∧
    (∀ t i, (t, i) ∈ Γ'.types → Γ'.add_or_get_type t = (Γ', i)) := by
  intro fuel ops Γ' h
  have hwf := applyOps_wf ops fuel Context.empty Γ' h WF_empty
  refine ⟨?_, ?_, ?_⟩
  · intro p hp q hq
    constructor
    · intro he
      exact congrArg Prod.snd (wf_fst_inj hwf hp hq he)
    · intro he
      exact congrArg Prod.fst (wf_snd_inj hwf hp hq he)
  · exact addOrGet_pair_iff hwf
  · intro t i hm
    simp [Context.add_or_get_type, mem_getByLeft hwf.2.1 hm]

/-- Witness for C1 at the empty context (reached by the empty operation
sequence): interning `Bool` then `Int` yields different handles. -/
theorem C1_witness :
    (((Context.empty.add_or_get_type .bool).1.add_or_get_type .int).2 =
        (Context.empty.add_or_get_type .bool).2 ↔ (Ty.int = Ty.bool)) ∧
    ¬ (Ty.int = Ty.bool) :=
  ⟨(C1_interner_canonicalization 1 [] Context.empty rfl).2.1 Ty.bool Ty.int,
   by decide⟩

/-! ### Which error variants each stage can produce -/

theorem tag_not_sig {e : Error} (h : e.kindTag ≤ 7) :
    e.isSignaturePhaseError = false := by
  cases e <;> simp_all [Error.kindTag, Error.isSignaturePhaseError]

theorem tag_not_mutual {e : Error} (h : 4 ≤ e.kindTag) :
    e.isMutualRec = false := by
  cases e <;> simp_all [Error.kindTag, Error.isMutualRec]

mutual

theorem ty_ref_error_tag : ∀ fuel Γ subst t Γ' e,
    Context.ty_ref fuel Γ subst t = some (Γ', .error e) →
    4 ≤ e.kindTag ∧ e.kindTag ≤ 6
  | 0, Γ, subst, t, Γ', e, h => by simp [Context.ty_ref] at h
  | fuel + 1, Γ, subst, t, Γ', e, h => by
    cases t with
    | primitive p =>
      simp only [Context.ty_ref, Option.some.injEq, Prod.mk.injEq] at h
      exact absurd h.2 (fun hc => Except.noConfusion hc)
    | openArray inner =>
      simp only [Context.ty_ref] at h
      cases hrec : Context.ty_ref fuel Γ subst inner with
      | none => simp only [hrec] at h; exact Option.noConfusion h
      | some q =>
        obtain ⟨Γ1, e1⟩ := q
        cases e1 with
        | error ε =>
          simp only [hrec, Option.some.injEq, Prod.mk.injEq] at h
          obtain ⟨-, h2⟩ := h
          injection h2 with h2
          exact h2 ▸ ty_ref_error_tag fuel Γ subst inner Γ1 ε hrec
        | ok i =>
          simp only [hrec, Option.some.injEq, Prod.mk.injEq] at h
          exact absurd h.2 (fun hc => Except.noConfusion hc)
    | array base size =>
      simp only [Context.ty_ref] at h
      cases hrec : Context.ty_ref fuel Γ subst base with
      | none => simp only [hrec] at h; exact Option.noConfusion h
      | some q =>
        obtain ⟨Γ1, e1⟩ := q
        cases e1 with
        | error ε =>
          simp only [hrec, Option.some.injEq, Prod.mk.injEq] at h
          obtain ⟨-, h2⟩ := h
          injection h2 with h2
          exact h2 ▸ ty_ref_error_tag fuel Γ subst base Γ1 ε hrec
        | ok i =>
          simp only [hrec, Option.some.injEq, Prod.mk.injEq] at h
          exact absurd h.2 (fun hc => Except.noConfusion hc)
    | named refLoc nameLoc name gens =>
      simp only [Context.ty_ref] at h
      cases hargs : Context.ty_ref_args fuel Γ subst gens with
      | none => simp only [hargs] at h; exact Option.noConfusion h
      | some q =>
        obtain ⟨Γ1, e1⟩ := q
        cases e1 with
        | error ε =>
          simp only [hargs, Option.some.injEq, Prod.mk.injEq] at h
          obtain ⟨-, h2⟩ := h
          injection h2 with h2
          exact h2 ▸ ty_ref_args_error_tag fuel Γ subst gens Γ1 ε hargs
        | ok gids =>
          simp only [hargs] at h
          cases hsub : alookup subst name with
          | some sid =>
            cases gids with
            | nil =>
              simp only [hsub] at h
              rw [if_neg (by simp)] at h
              simp only [Option.some.injEq, Prod.mk.injEq] at h
              exact absurd h.2 (fun hc => Except.noConfusion hc)
            | cons g gs =>
              simp only [hsub] at h
              rw [if_pos (by simp)] at h
              simp only [Option.some.injEq, Prod.mk.injEq] at h
              obtain ⟨-, h2⟩ := h
              injection h2 with h2
              rw [← h2]
              simp [Error.kindTag]
          | none =>
            simp only [hsub] at h
            exact ty_named_error_tag fuel Γ1 refLoc name gids Γ' e h

theorem ty_ref_args_error_tag : ∀ fuel Γ subst ts Γ' e,
    Context.ty_ref_args fuel Γ subst ts = some (Γ', .error e) →
    4 ≤ e.kindTag ∧ e.kindTag ≤ 6
  | 0, Γ, subst, ts, Γ', e, h => by simp [Context.ty_ref_args] at h
  | fuel + 1, Γ, subst, ts, Γ', e, h => by
    cases ts with
    | nil =>
      simp only [Context.ty_ref_args, Option.some.injEq, Prod.mk.injEq] at h
      exact absurd h.2 (fun hc => Except.noConfusion hc)
    | cons t rest =>
      simp only [Context.ty_ref_args] at h
      cases hrec : Context.ty_ref fuel Γ subst t with
      | none => simp only [hrec] at h; exact Option.noConfusion h
      | some q =>
        obtain ⟨Γ1, e1⟩ := q
        cases e1 with
        | error ε =>
          simp only [hrec, Option.some.injEq, Prod.mk.injEq] at h
          obtain ⟨-, h2⟩ := h
          injection h2 with h2
          exact h2 ▸ ty_ref_error_tag fuel Γ subst t Γ1 ε hrec
        | ok i =>
          simp only [hrec] at h
          cases hrest : Context.ty_ref_args fuel Γ1 subst rest with
          | none => simp only [hrest] at h; exact Option.noConfusion h
          | some q2 =>
            obtain ⟨Γ2, e2⟩ := q2
            cases e2 with
            | error ε =>
              simp only [hrest, Option.some.injEq, Prod.mk.injEq] at h
              obtain ⟨-, h2⟩ := h
              injection h2 with h2
              exact h2 ▸ ty_ref_args_error_tag fuel Γ1 subst rest Γ2 ε hrest
            | ok is =>
              simp only [hrest, Option.some.injEq, Prod.mk.injEq] at h
              exact absurd h.2 (fun hc => Except.noConfusion hc)

theorem ty_named_error_tag : ∀ fuel Γ loc name gens Γ' e,
    Context.ty_named fuel Γ loc name gens = some (Γ', .error e) →
    4 ≤ e.kindTag ∧ e.kindTag ≤ 6
  | 0, Γ, loc, name, gens, Γ', e, h => by simp [Context.ty_named] at h
  | fuel + 1, Γ, loc, name, gens, Γ', e, h => by
    have hfall : ∀ Γ2 e2,
        (match alookup Γ.defs name with
         | none => some (Γ, .error (.UndefinedType name [loc]))
         | some d =>
           if d.generics.length ≠ gens.length then
             some (Γ, .error (.MismatchedNumberGenericArgs loc gens.length
               d.generics.length d.defLoc))
           else
             match d.rhs with
             | .distinct target =>
               match Context.ty_ref fuel Γ ((d.generics.map (·.2)).zip gens) target with
               | none => none
               | some (Γ', .error e) => some (Γ', .error e)
               | some (Γ', .ok inner) =>
                 match alookup Γ'.generic_distinct_ids name with
                 | none => none
                 | some distinct_id =>
                   let q := Γ'.add_or_get_type (.distinct distinct_id inner)
                   some (q.1, .ok q.2)
             | .aliasOf target =>
               Context.ty_ref fuel Γ ((d.generics.map (·.2)).zip gens) target
             | .record fields =>
               match alookup Γ.generic_distinct_ids name with
               | none => none
               | some distinct_id =>
                 match Context.ty_named_fields fuel Γ
                     ((d.generics.map (·.2)).zip gens) fields with
                 | none => none
                 | some (Γ', .error e) => some (Γ', .error e)
                 | some (Γ', .ok record_fields) =>
                   let q1 := Γ'.add_or_get_type (.record record_fields)
                   let q2 := q1.1.add_or_get_type (.distinct distinct_id q1.2)
                   some (q2.1, .ok q2.2) : Option (Context × Except Error TypeId)) =
          some (Γ2, .error e2) → 4 ≤ e2.kindTag ∧ e2.kindTag ≤ 6 := by
      intro Γ2 e2 h'
      cases hdefs : alookup Γ.defs name with
      | none =>
        simp only [hdefs, Option.some.injEq, Prod.mk.injEq] at h'
        obtain ⟨-, h2⟩ := h'
        injection h2 with h2
        rw [← h2]
        simp [Error.kindTag]
      | some d =>
        simp only [hdefs] at h'
        by_cases hlen : d.generics.length ≠ gens.length
        · rw [if_pos hlen] at h'
          simp only [Option.some.injEq, Prod.mk.injEq] at h'
          obtain ⟨-, h2⟩ := h'
          injection h2 with h2
          rw [← h2]
          simp [Error.kindTag]
        · rw [if_neg hlen] at h'
          cases hrhs : d.rhs with
          | distinct target =>
            simp only [hrhs] at h'
            cases hrec : Context.ty_ref fuel Γ ((d.generics.map (·.2)).zip gens)
                target with
            | none => simp only [hrec] at h'; exact Option.noConfusion h'
            | some q =>
              obtain ⟨Γ3, e3⟩ := q
              cases e3 with
              | error ε =>
                simp only [hrec, Option.some.injEq, Prod.mk.injEq] at h'
                obtain ⟨-, h2⟩ := h'
                injection h2 with h2
                exact h2 ▸ ty_ref_error_tag fuel Γ _ target Γ3 ε hrec
              | ok inner =>
                simp only [hrec] at h'
                cases hg : alookup Γ3.generic_distinct_ids name with
                | none => simp only [hg] at h'; exact Option.noConfusion h'
                | some did =>
                  simp only [hg, Option.some.injEq, Prod.mk.injEq] at h'
                  exact absurd h'.2 (fun hc => Except.noConfusion hc)
          | aliasOf target =>
            simp only [hrhs] at h'
            exact ty_ref_error_tag fuel Γ _ target Γ2 e2 h'
          | record fields =>
            simp only [hrhs] at h'
            cases hg : alookup Γ.generic_distinct_ids name with
            | none => simp only [hg] at h'; exact Option.noConfusion h'
            | some did =>
              simp only [hg] at h'
              cases hflds : Context.ty_named_fields fuel Γ
                  ((d.generics.map (·.2)).zip gens) fields with
              | none => simp only [hflds] at h'; exact Option.noConfusion h'
              | some q =>
                obtain ⟨Γ3, e3⟩ := q
                cases e3 with
                | error ε =>
                  simp only [hflds, Option.some.injEq, Prod.mk.injEq] at h'
                  obtain ⟨-, h2⟩ := h'
                  injection h2 with h2
                  exact h2 ▸ ty_named_fields_error_tag fuel Γ _ fields Γ3 ε hflds
                | ok rfields =>
                  simp only [hflds, Option.some.injEq, Prod.mk.injEq] at h'
                  exact absurd h'.2 (fun hc => Except.noConfusion hc)
    simp only [Context.ty_named] at h
    cases hct : alookup Γ.complete_types name with
    | some ty =>
      cases gens with
      | nil =>
        simp only [hct, Option.some.injEq, Prod.mk.injEq] at h
        exact absurd h.2 (fun hc => Except.noConfusion hc)
      | cons g gs =>
        simp only [hct] at h
        exact hfall Γ' e h
    | none =>
      simp only [hct] at h
      cases gens with
      | nil => exact hfall Γ' e h
      | cons g gs => exact hfall Γ' e h

theorem ty_named_fields_error_tag : ∀ fuel Γ subst fs Γ' e,
    Context.ty_named_fields fuel Γ subst fs = some (Γ', .error e) →
    4 ≤ e.kindTag ∧ e.kindTag ≤ 6
  | 0, Γ, subst, fs, Γ', e, h => by simp [Context.ty_named_fields] at h
  | fuel + 1, Γ, subst, fs, Γ', e, h => by
    cases fs with
    | nil =>
      simp only [Context.ty_named_fields, Option.some.injEq, Prod.mk.injEq] at h
      exact absurd h.2 (fun hc => Except.noConfusion hc)
    | cons f rest =>
      simp only [Context.ty_named_fields] at h
      cases hrec : Context.ty_ref fuel Γ subst f.type_ with
      | none => simp only [hrec] at h; exact Option.noConfusion h
      | some q =>
        obtain ⟨Γ1, e1⟩ := q
        cases e1 with
        | error ε =>
          simp only [hrec, Option.some.injEq, Prod.mk.injEq] at h
          obtain ⟨-, h2⟩ := h
          injection h2 with h2
          exact h2 ▸ ty_ref_error_tag fuel Γ subst f.type_ Γ1 ε hrec
        | ok i =>
          simp only [hrec] at h
          cases hrest : Context.ty_named_fields fuel Γ1 subst rest with
          | none => simp only [hrest] at h; exact Option.noConfusion h
          | some q2 =>
            obtain ⟨Γ2, e2⟩ := q2
            cases e2 with
            | error ε =>
              simp only [hrest, Option.some.injEq, Prod.mk.injEq] at h
              obtain ⟨-, h2⟩ := h
              injection h2 with h2
              exact h2 ▸ ty_named_fields_error_tag fuel Γ1 subst rest Γ2 ε hrest
            | ok is =>
              simp only [hrest, Option.some.injEq, Prod.mk.injEq] at h
              exact absurd h.2 (fun hc => Except.noConfusion hc)

end

mutual

theorem ty_validate_ref_error_tag : ∀ t Γ generics e,
    Context.ty_validate_ref Γ generics t = .error e →
    4 ≤ e.kindTag ∧ e.kindTag ≤ 6
  | .primitive p, Γ, generics, e, h => by
    simp [Context.ty_validate_ref] at h
  | .openArray inner, Γ, generics, e, h =>
    ty_validate_ref_error_tag inner Γ generics e h
  | .array base size, Γ, generics, e, h =>
    ty_validate_ref_error_tag base Γ generics e h
  | .named refLoc nameLoc name applied, Γ, generics, e, h => by
    simp only [Context.ty_validate_ref] at h
    by_cases hgen : name ∈ generics
    · rw [if_pos hgen] at h
      cases applied with
      | nil => simp at h
      | cons a as =>
        rw [if_pos (by simp)] at h
        injection h with h
        rw [← h]
        simp [Error.kindTag]
    · rw [if_neg hgen] at h
      cases hdefs : alookup Γ.defs name with
      | none =>
        simp only [hdefs] at h
        injection h with h
        rw [← h]
        simp [Error.kindTag]
      | some d =>
        simp only [hdefs] at h
        by_cases hlen : d.generics.length ≠ applied.length
        · rw [if_pos hlen] at h
          injection h with h
          rw [← h]
          simp [Error.kindTag]
        · rw [if_neg hlen] at h
          exact ty_validate_refs_error_tag applied Γ generics e h

theorem ty_validate_refs_error_tag : ∀ ts Γ generics e,
    Context.ty_validate_refs Γ generics ts = .error e →
    4 ≤ e.kindTag ∧ e.kindTag ≤ 6
  | [], Γ, generics, e, h => by simp [Context.ty_validate_refs] at h
  | t :: rest, Γ, generics, e, h => by
    simp only [Context.ty_validate_refs] at h
    cases hv : Context.ty_validate_ref Γ generics t with
    | ok u =>
      simp only [hv] at h
      exact ty_validate_refs_error_tag rest Γ generics e h
    | error ε =>
      simp only [hv] at h
      injection h with h
      exact h ▸ ty_validate_ref_error_tag t Γ generics ε hv

end

theorem add_record_fields_error_tag : ∀ fs fuel Γ def_loc seen errs fields Γ' errs'
    fields',
    add_record_fields fuel Γ def_loc fs seen errs fields = some (Γ', errs', fields') →
    (∀ e ∈ errs, 4 ≤ e.kindTag ∧ e.kindTag ≤ 7) →
    ∀ e ∈ errs', 4 ≤ e.kindTag ∧ e.kindTag ≤ 7 := by
  intro fs
  induction fs with
  | nil =>
    intro fuel Γ def_loc seen errs fields Γ' errs' fields' h hin
    simp only [add_record_fields, Option.some.injEq, Prod.mk.injEq] at h
    obtain ⟨-, h2, -⟩ := h
    exact h2 ▸ hin
  | cons f rest ih =>
    intro fuel Γ def_loc seen errs fields Γ' errs' fields' h hin
    simp only [add_record_fields] at h
    have hin2 : ∀ e ∈ (match alookup seen f.name with
        | some prev => errs ++ [Error.FieldRedefinition prev f.nameLoc def_loc]
        | none => errs), 4 ≤ e.kindTag ∧ e.kindTag ≤ 7 := by
      cases hseen : alookup seen f.name with
      | some prev =>
        intro e he
        rcases List.mem_append.mp he with h1 | h1
        · exact hin e h1
        · simp only [List.mem_singleton] at h1
          rw [h1]
          simp [Error.kindTag]
      | none => exact hin
    cases hrec : Context.ty_ref fuel Γ [] f.type_ with
    | none => simp only [hrec] at h; exact Option.noConfusion h
    | some q =>
      obtain ⟨Γ1, e1⟩ := q
      cases e1 with
      | error ε =>
        simp only [hrec] at h
        refine ih fuel Γ1 def_loc _ _ _ Γ' errs' fields' h ?_
        intro e he
        rcases List.mem_append.mp he with h1 | h1
        · exact hin2 e h1
        · simp only [List.mem_singleton] at h1
          have := ty_ref_error_tag fuel Γ [] f.type_ Γ1 ε hrec
          rw [h1]
          exact ⟨this.1, this.2.trans (by norm_num)⟩
      | ok i =>
        simp only [hrec] at h
        exact ih fuel Γ1 def_loc _ _ _ Γ' errs' fields' h hin2

theorem validate_record_fields_error_tag : ∀ fs Γ def_loc generics seen errs,
    (∀ e ∈ errs, 4 ≤ e.kindTag ∧ e.kindTag ≤ 7) →
    ∀ e ∈ validate_record_fields Γ def_loc generics fs seen errs,
      4 ≤ e.kindTag ∧ e.kindTag ≤ 7 := by
  intro fs
  induction fs with
  | nil =>
    intro Γ def_loc generics seen errs hin
    simpa [validate_record_fields] using hin
  | cons f rest ih =>
    intro Γ def_loc generics seen errs hin
    simp only [validate_record_fields]
    apply ih
    intro e he
    have hin2 : ∀ e ∈ (match alookup seen f.name with
        | some prev => errs ++ [Error.FieldRedefinition prev f.nameLoc def_loc]
        | none => errs), 4 ≤ e.kindTag ∧ e.kindTag ≤ 7 := by
      cases hseen : alookup seen f.name with
      | some prev =>
        intro e2 he2
        rcases List.mem_append.mp he2 with h1 | h1
        · exact hin e2 h1
        · simp only [List.mem_singleton] at h1
          rw [h1]
          simp [Error.kindTag]
      | none => exact hin
    cases hv : Context.ty_validate_ref Γ generics f.type_ with
    | ok u =>
      simp only [hv] at he
      exact hin2 e he
    | error ε =>
      simp only [hv] at he
      rcases List.mem_append.mp he with h1 | h1
      · exact hin2 e h1
      · simp only [List.mem_singleton] at h1
        have := ty_validate_ref_error_tag f.type_ Γ generics ε hv
        rw [h1]
        exact ⟨this.1, this.2.trans (by norm_num)⟩

theorem add_type_definition_error_tag : ∀ fuel Γ d Γ' es,
    Context.add_type_definition fuel Γ d = some (Γ', .error es) →
    ∀ e ∈ es, 4 ≤ e.kindTag ∧ e.kindTag ≤ 7 := by
  intro fuel Γ d Γ' es h
  simp only [Context.add_type_definition] at h
  by_cases hgen : d.generics.isEmpty
  · rw [if_pos hgen] at h
    cases hrhs : d.rhs with
    | distinct target =>
      rw [hrhs] at h
      cases hrec : Context.ty_ref fuel
          { Γ with defs := mapInsert Γ.defs d.name d } [] target with
      | none => simp only [hrec] at h; exact Option.noConfusion h
      | some q =>
        obtain ⟨Γ1, e1⟩ := q
        cases e1 with
        | error ε =>
          simp only [hrec, Option.some.injEq, Prod.mk.injEq] at h
          obtain ⟨-, h2⟩ := h
          injection h2 with h2
          rw [← h2]
          intro e he
          simp only [List.mem_singleton] at he
          have := ty_ref_error_tag fuel _ [] target Γ1 ε hrec
          rw [he]
          exact ⟨this.1, this.2.trans (by norm_num)⟩
        | ok alias_id =>
          simp only [hrec, Option.some.injEq, Prod.mk.injEq] at h
          exact absurd h.2 (fun hc => Except.noConfusion hc)
    | aliasOf target =>
      rw [hrhs] at h
      cases hrec : Context.ty_ref fuel
          { Γ with defs := mapInsert Γ.defs d.name d } [] target with
      | none => simp only [hrec] at h; exact Option.noConfusion h
      | some q =>
        obtain ⟨Γ1, e1⟩ := q
        cases e1 with
        | error ε =>
          simp only [hrec, Option.some.injEq, Prod.mk.injEq] at h
          obtain ⟨-, h2⟩ := h
          injection h2 with h2
          rw [← h2]
          intro e he
          simp only [List.mem_singleton] at he
          have := ty_ref_error_tag fuel _ [] target Γ1 ε hrec
          rw [he]
          exact ⟨this.1, this.2.trans (by norm_num)⟩
        | ok ty_id =>
          simp only [hrec, Option.some.injEq, Prod.mk.injEq] at h
          exact absurd h.2 (fun hc => Except.noConfusion hc)
    | record field_defs =>
      rw [hrhs] at h
      cases hflds : add_record_fields fuel
          { Γ with defs := mapInsert Γ.defs d.name d } d.defLoc field_defs [] [] [] with
      | none => simp only [hflds] at h; exact Option.noConfusion h
      | some q =>
        obtain ⟨Γ1, errs1, fields1⟩ := q
        have htag := add_record_fields_error_tag field_defs fuel _ d.defLoc
          [] [] [] Γ1 errs1 fields1 hflds (by simp)
        cases herr : errs1.isEmpty with
        | true =>
          simp only [hflds] at h
          rw [herr] at h
          rw [if_neg (by simp)] at h
          simp only [Option.some.injEq, Prod.mk.injEq] at h
          exact absurd h.2 (fun hc => Except.noConfusion hc)
        | false =>
          simp only [hflds] at h
          rw [herr] at h
          rw [if_pos (by simp)] at h
          simp only [Option.some.injEq, Prod.mk.injEq] at h
          obtain ⟨-, h2⟩ := h
          injection h2 with h2
          exact h2 ▸ htag
  · rw [if_neg hgen] at h
    cases hrhs : d.rhs with
    | distinct target =>
      simp only [hrhs] at h
      cases hv : Context.ty_validate_ref
          { Γ with defs := mapInsert Γ.defs d.name d } (d.generics.map (·.2))
          target with
      | ok u =>
        simp only [hv, Option.some.injEq, Prod.mk.injEq] at h
        obtain ⟨-, h2⟩ := h
        simp only [List.isEmpty_nil, if_true] at h2
        exact absurd h2 (fun hc => Except.noConfusion hc)
      | error ε =>
        simp only [hv, Option.some.injEq, Prod.mk.injEq] at h
        obtain ⟨-, h2⟩ := h
        rw [if_neg (by simp)] at h2
        injection h2 with h2
        rw [← h2]
        intro e he
        simp only [List.mem_singleton] at he
        have := ty_validate_ref_error_tag target _ _ ε hv
        rw [he]
        exact ⟨this.1, this.2.trans (by norm_num)⟩
    | aliasOf target =>
      simp only [hrhs] at h
      cases hv : Context.ty_validate_ref
          { Γ with defs := mapInsert Γ.defs d.name d } (d.generics.map (·.2))
          target with
      | ok u =>
        simp only [hv, Option.some.injEq, Prod.mk.injEq] at h
        obtain ⟨-, h2⟩ := h
        simp only [List.isEmpty_nil, if_true] at h2
        exact absurd h2 (fun hc => Except.noConfusion hc)
      | error ε =>
        simp only [hv, Option.some.injEq, Prod.mk.injEq] at h
        obtain ⟨-, h2⟩ := h
        rw [if_neg (by simp)] at h2
        injection h2 with h2
        rw [← h2]
        intro e he
        simp only [List.mem_singleton] at he
        have := ty_validate_ref_error_tag target _ _ ε hv
        rw [he]
        exact ⟨this.1, this.2.trans (by norm_num)⟩
    | record field_defs =>
      simp only [hrhs] at h
      have htag := validate_record_fields_error_tag field_defs
        { Γ with defs := mapInsert Γ.defs d.name d } d.defLoc
        (d.generics.map (·.2)) [] [] (by simp)
      simp only [Option.some.injEq, Prod.mk.injEq] at h
      obtain ⟨-, h2⟩ := h
      cases herr : (validate_record_fields
          { Γ with defs := mapInsert Γ.defs d.name d } d.defLoc
          (d.generics.map (·.2)) field_defs [] []).isEmpty with
      | true =>
        rw [herr] at h2
        rw [if_pos (by simp)] at h2
        exact absurd h2 (fun hc => Except.noConfusion hc)
      | false =>
        rw [herr] at h2
        rw [if_neg (by simp)] at h2
        injection h2 with h2
        exact h2 ▸ htag

theorem buildNodes_error_tag : ∀ ds errs nodes t2n,
    (∀ e ∈ errs, e.kindTag ≤ 7) →
    ∀ e ∈ (buildNodes ds errs nodes t2n).1, e.kindTag ≤ 7 := by
  intro ds
  induction ds with
  | nil =>
    intro errs nodes t2n hin
    simpa [buildNodes] using hin
  | cons d rest ih =>
    intro errs nodes t2n hin
    simp only [buildNodes]
    apply ih
    cases hprev : alookup t2n d.name with
    | some prev_idx =>
      intro e he
      rcases List.mem_append.mp he with h1 | h1
      · exact hin e h1
      · simp only [List.mem_singleton] at h1
        rw [h1]
        simp [Error.kindTag]
    | none => exact hin

theorem generic_params_check_error_tag : ∀ gs seen e,
    generic_params_check gs seen = .error e → e.kindTag ≤ 7 := by
  intro gs
  induction gs with
  | nil =>
    intro seen e h
    simp [generic_params_check] at h
  | cons g rest ih =>
    intro seen e h
    obtain ⟨loc, name⟩ := g
    simp only [generic_params_check] at h
    cases hs : alookup seen name with
    | some prev =>
      simp only [hs] at h
      injection h with h
      rw [← h]
      simp [Error.kindTag]
    | none =>
      simp only [hs] at h
      exact ih _ e h

theorem type_def_deps_error_tag : ∀ d deps e,
    type_def_deps d deps = .error e → e.kindTag ≤ 7 := by
  intro d deps e h
  simp only [type_def_deps] at h
  cases hg : generic_params_check d.generics [] with
  | error ε =>
    simp only [hg] at h
    injection h with h
    exact h ▸ generic_params_check_error_tag d.generics [] ε hg
  | ok gens =>
    simp only [hg] at h
    exact Except.noConfusion h

theorem drainDeps_error_tag : ∀ deps t2n self errs edges,
    (∀ e ∈ errs, e.kindTag ≤ 7) →
    ∀ e ∈ (drainDeps t2n self deps errs edges).1, e.kindTag ≤ 7 := by
  intro deps
  induction deps with
  | nil =>
    intro t2n self errs edges hin
    simpa [drainDeps] using hin
  | cons p rest ih =>
    intro t2n self errs edges hin
    obtain ⟨name, uses⟩ := p
    simp only [drainDeps]
    cases hl : alookup t2n name with
    | some id => exact ih t2n self errs _ hin
    | none =>
      apply ih
      intro e he
      rcases List.mem_append.mp he with h1 | h1
      · exact hin e h1
      · simp only [List.mem_singleton] at h1
        rw [h1]
        simp [Error.kindTag]

theorem buildDeps_error_tag : ∀ ds t2n errs deps edges,
    (∀ e ∈ errs, e.kindTag ≤ 7) →
    ∀ e ∈ (buildDeps t2n ds errs deps edges).1, e.kindTag ≤ 7 := by
  intro ds
  induction ds with
  | nil =>
    intro t2n errs deps edges hin
    simpa [buildDeps] using hin
  | cons d rest ih =>
    intro t2n errs deps edges hin
    simp only [buildDeps]
    cases hd : type_def_deps d deps with
    | error ε =>
      apply ih
      intro e he
      rcases List.mem_append.mp he with h1 | h1
      · exact hin e h1
      · simp only [List.mem_singleton] at h1
        rw [h1]
        exact type_def_deps_error_tag d deps ε hd
    | ok deps' =>
      cases hl : alookup deps' d.name with
      | some usages =>
        simp only [hl]
        apply ih
        intro e he
        rcases List.mem_append.mp he with h1 | h1
        · exact hin e h1
        · simp only [List.mem_singleton] at h1
          rw [h1]
          simp [Error.kindTag]
      | none =>
        simp only [hl]
        apply ih
        intro e he
        rcases List.mem_append.mp he with h1 | h1
        · exact hin e h1
        · exact drainDeps_error_tag deps' t2n _ [] [] (by simp) e h1

theorem processGroups_error_tag : ∀ gs fuel nodes Γ errs Γ' errs',
    processGroups fuel nodes gs Γ errs = some (Γ', errs') →
    (∀ e ∈ errs, e.kindTag ≤ 7) →
    ∀ e ∈ errs', e.kindTag ≤ 7 := by
  intro gs
  induction gs with
  | nil =>
    intro fuel nodes Γ errs Γ' errs' h hin
    simp only [processGroups, Option.some.injEq, Prod.mk.injEq] at h
    exact h.2 ▸ hin
  | cons g rest ih =>
    intro fuel nodes Γ errs Γ' errs' h hin
    cases g with
    | nil => simp only [processGroups] at h; exact Option.noConfusion h
    | cons i is =>
      cases is with
      | nil =>
        simp only [processGroups] at h
        cases hadd : Context.add_type_definition fuel Γ (nodes.getD i default) with
        | none => simp only [hadd] at h; exact Option.noConfusion h
        | some q =>
          obtain ⟨Γ1, e1⟩ := q
          cases e1 with
          | ok u =>
            obtain ⟨⟩ := u
            simp only [hadd] at h
            exact ih fuel nodes Γ1 errs Γ' errs' h hin
          | error es =>
            simp only [hadd] at h
            refine ih fuel nodes Γ1 _ Γ' errs' h ?_
            intro e he
            rcases List.mem_append.mp he with h1 | h1
            · exact hin e h1
            · exact (add_type_definition_error_tag fuel Γ _ Γ1 es hadd e h1).2
      | cons j js =>
        simp only [processGroups] at h
        refine ih fuel nodes Γ _ Γ' errs' h ?_
        intro e he
        rcases List.mem_append.mp he with h1 | h1
        · exact hin e h1
        · simp only [List.mem_singleton] at h1
          rw [h1]
          simp [Error.kindTag]

theorem process_type_definitions_error_kind : ∀ fuel Γ m Γ' es,
    process_type_definitions fuel Γ m = some (Γ', .error es) →
    ∀ e ∈ es, e.kindTag ≤ 7 := by
  intro fuel Γ m Γ' es h
  simp only [process_type_definitions] at h
  by_cases hemp : (buildDeps (buildNodes m.types [] [] []).2.2 m.types
      (buildNodes m.types [] [] []).1 [] []).1.isEmpty
  · rw [if_neg (by simpa using hemp)] at h
    cases hpg : processGroups fuel (buildNodes m.types [] [] []).2.1
        (tarjan_scc (buildNodes m.types [] [] []).2.1.length
          (buildDeps (buildNodes m.types [] [] []).2.2 m.types
            (buildNodes m.types [] [] []).1 [] []).2) Γ [] with
    | none => simp only [hpg] at h; exact Option.noConfusion h
    | some q =>
      obtain ⟨Γ1, errs1⟩ := q
      simp only [hpg, Option.some.injEq, Prod.mk.injEq] at h
      obtain ⟨-, h2⟩ := h
      cases herr : errs1.isEmpty with
      | true =>
        rw [herr] at h2
        rw [if_pos (by simp)] at h2
        exact absurd h2 (fun hc => Except.noConfusion hc)
      | false =>
        rw [herr] at h2
        rw [if_neg (by simp)] at h2
        injection h2 with h2
        subst h2
        exact processGroups_error_tag _ fuel _ Γ [] Γ1 errs1 hpg (by simp)
  · rw [if_pos (by simpa using hemp)] at h
    simp only [Option.some.injEq, Prod.mk.injEq] at h
    obtain ⟨-, h2⟩ := h
    injection h2 with h2
    subst h2
    exact buildDeps_error_tag m.types _ _ [] []
      (buildNodes_error_tag m.types [] [] [] (by simp))

/-- Claim C2 — phase gating: when the type-definition phase reports
errors, `type_check` returns exactly those errors (the signature and
constant phases never run), and none of them is a `FunctionRedefinition`
or `ConstantRedefinition`; when the type-definition phase succeeds and a
module's two functions each produce a signature error against the
successively mutated context, both errors appear in the result, in
order. -/
theorem C2_phase_gating :
    (∀ fuel Γ m Γ1 es,
      process_type_definitions fuel Γ m = some (Γ1, .error es) →
      type_check fuel Γ m = some (Γ1, .error es) ∧
      ∀ e ∈ es, e.isSignaturePhaseError = false) ∧
    (∀ fuel Γ m Γ1 f1 f2 Γa Γb e1 e2,
      process_type_definitions fuel Γ m = some (Γ1, .ok ()) →
      m.functions = [f1, f2] →
      Context.add_function_signature fuel Γ1 f1 = some (Γa, .error e1) →
      Context.add_function_signature fuel Γa f2 = some (Γb, .error e2) →
      type_check fuel Γ m = some (Γb, .error [e1, e2])) := by
  constructor
  · intro fuel Γ m Γ1 es h
    refine ⟨?_, ?_⟩
    · simp only [type_check, h]
    · intro e he
      exact tag_not_sig (process_type_definitions_error_kind fuel Γ m Γ1 es h e he)
  · intro fuel Γ m Γ1 f1 f2 Γa Γb e1 e2 hproc hm hf1 hf2
    simp only [type_check, hproc, add_function_signatures, hm,
      add_function_signatures_go, hf1, hf2]
    simp

/-- Witness for C2: the module with two functions of undefined return
types passes the (empty) type phase and reports both `UndefinedType`
signature errors in one call. -/
theorem C2_witness :
    type_check 10 Context.empty mTwoBadSigs =
      some (Context.empty, .error [.UndefinedType "U" [122], .UndefinedType "V" [126]]) :=
  C2_phase_gating.2 10 Context.empty mTwoBadSigs Context.empty funU funV
    Context.empty Context.empty (.UndefinedType "U" [122]) (.UndefinedType "V" [126])
    rfl rfl rfl rfl

/-! ### The group loop and the component structure -/

theorem add_or_get_type_fields (Γ : Context) (t : Ty) :
    (Γ.add_or_get_type t).1.defs = Γ.defs ∧
    (Γ.add_or_get_type t).1.complete_types = Γ.complete_types := by
  unfold Context.add_or_get_type
  cases getByLeft Γ.types t <;> simp [Context.add_type]

theorem add_type_definition_defs : ∀ fuel Γ d r,
    Context.add_type_definition fuel Γ d = some r →
    r.1.defs = mapInsert Γ.defs d.name d := by
  intro fuel Γ d r h
  simp only [Context.add_type_definition] at h
  by_cases hgen : d.generics.isEmpty
  · rw [if_pos hgen] at h
    cases hrhs : d.rhs with
    | distinct target =>
      rw [hrhs] at h
      cases hrec : Context.ty_ref fuel
          { Γ with defs := mapInsert Γ.defs d.name d } [] target with
      | none => simp only [hrec] at h; exact Option.noConfusion h
      | some q =>
        obtain ⟨Γ1, e1⟩ := q
        have hp := (ty_ref_preserves fuel _ [] target (Γ1, e1) hrec).1
        cases e1 with
        | error ε =>
          simp only [hrec, Option.some.injEq] at h
          rw [← h]
          exact hp
        | ok alias_id =>
          simp only [hrec, Option.some.injEq] at h
          rw [← h]
          exact hp
    | aliasOf target =>
      rw [hrhs] at h
      cases hrec : Context.ty_ref fuel
          { Γ with defs := mapInsert Γ.defs d.name d } [] target with
      | none => simp only [hrec] at h; exact Option.noConfusion h
      | some q =>
        obtain ⟨Γ1, e1⟩ := q
        have hp := (ty_ref_preserves fuel _ [] target (Γ1, e1) hrec).1
        cases e1 with
        | error ε =>
          simp only [hrec, Option.some.injEq] at h
          rw [← h]
          exact hp
        | ok ty_id =>
          simp only [hrec, Option.some.injEq] at h
          rw [← h]
          exact hp
    | record field_defs =>
      rw [hrhs] at h
      cases hflds : add_record_fields fuel
          { Γ with defs := mapInsert Γ.defs d.name d } d.defLoc field_defs [] [] [] with
      | none => simp only [hflds] at h; exact Option.noConfusion h
      | some q =>
        obtain ⟨Γ1, errs1, fields1⟩ := q
        have hp := (add_record_fields_preserves field_defs fuel _ d.defLoc
          [] [] [] _ hflds).1
        cases herr : errs1.isEmpty with
        | true =>
          simp only [hflds] at h
          rw [herr] at h
          rw [if_neg (by simp)] at h
          injection h with h
          rw [← h]
          have h2 := (add_or_get_type_fields Γ1 (.record fields1)).1
          simp only [Context.add_type, Context.next_distinct_id]
          rw [h2]
          exact hp
        | false =>
          simp only [hflds] at h
          rw [herr] at h
          rw [if_pos (by simp)] at h
          injection h with h
          rw [← h]
          exact hp
  · rw [if_neg hgen] at h
    cases hrhs : d.rhs with
    | distinct target =>
      simp only [hrhs] at h
      injection h with h
      rw [← h]
      rfl
    | aliasOf target =>
      simp only [hrhs] at h
      injection h with h
      rw [← h]
    | record field_defs =>
      simp only [hrhs] at h
      injection h with h
      rw [← h]
      rfl

theorem alookup_mapInsert_isSome {β : Type} {l : List (Identifier × β)}
    {k k' : Identifier} {v : β} (h : (alookup l k').isSome) :
    (alookup (mapInsert l k v) k').isSome := by
  by_cases he : k' = k
  · subst he
    rw [alookup_mapInsert_self]
    rfl
  · rw [alookup_mapInsert_ne l k k' v he]
    exact h

theorem sccCollect_spec : ∀ vs n edges assigned,
    (∀ g ∈ sccCollect n edges vs assigned, ∀ i ∈ g, ¬ i ∈ assigned) ∧
    List.Pairwise (fun g g' => ∀ i ∈ g, ¬ i ∈ g') (sccCollect n edges vs assigned) := by
  intro vs
  induction vs with
  | nil =>
    intro n edges assigned
    exact ⟨by simp [sccCollect], by simp [sccCollect]⟩
  | cons v rest ih =>
    intro n edges assigned
    by_cases hv : v ∈ assigned
    · simp only [sccCollect, if_pos hv]
      exact ih n edges assigned
    · simp only [sccCollect, if_neg hv]
      have hcomp_not : ∀ i ∈ (List.range n).filter
          (fun w => decide (¬ w ∈ assigned) && sameSCC n edges v w),
          ¬ i ∈ assigned := by
        intro i hi
        have := List.of_mem_filter hi
        simp only [Bool.and_eq_true, decide_eq_true_eq] at this
        exact this.1
      obtain ⟨ih1, ih2⟩ := ih n edges (assigned ++ (List.range n).filter
        (fun w => decide (¬ w ∈ assigned) && sameSCC n edges v w))
      constructor
      · intro g hg i hig
        rcases List.mem_cons.mp hg with h1 | h1
        · exact hcomp_not i (h1 ▸ hig)
        · intro ha
          exact ih1 g h1 i hig (List.mem_append_left _ ha)
      · refine List.Pairwise.cons ?_ ih2
        intro g' hg' i hic hig'
        exact ih1 g' hg' i hig' (List.mem_append_right _ hic)

theorem pickNext_split : ∀ l pre edges before c after,
    pickNext edges pre l = some (before, c, after) →
    pre ++ l = before ++ c :: after := by
  intro l
  induction l with
  | nil =>
    intro pre edges before c after h
    simp [pickNext] at h
  | cons x rest ih =>
    intro pre edges before c after h
    simp only [pickNext] at h
    split at h
    · have := ih (pre ++ [x]) edges before c after h
      simpa [List.append_assoc] using this
    · simp only [Option.some.injEq, Prod.mk.injEq] at h
      obtain ⟨h1, h2, h3⟩ := h
      subst h1
      subst h2
      subst h3
      rfl

theorem orderComps_perm : ∀ k edges rem, (orderComps edges k rem).Perm rem := by
  intro k
  induction k with
  | zero =>
    intro edges rem
    exact List.Perm.refl _
  | succ k ih =>
    intro edges rem
    simp only [orderComps]
    cases hp : pickNext edges [] rem with
    | none => exact List.Perm.refl _
    | some t =>
      obtain ⟨before, c, after⟩ := t
      have hsplit := pickNext_split rem [] edges before c after hp
      simp only [List.nil_append] at hsplit
      rw [hsplit]
      exact ((ih edges (before ++ after)).cons c).trans List.perm_middle.symm

theorem tarjan_scc_disjoint (n : Nat) (edges : List (Nat × Nat)) :
    List.Pairwise (fun g g' => ∀ i ∈ g, ¬ i ∈ g') (tarjan_scc n edges) := by
  have hsym : ∀ {g g' : List Nat},
      (∀ i ∈ g, ¬ i ∈ g') → (∀ i ∈ g', ¬ i ∈ g) :=
    fun h i hi hig => h i hig hi
  have hperm := orderComps_perm (sccCollect n edges (List.range n) []).length edges
    (sccCollect n edges (List.range n) [])
  have hpw := (sccCollect_spec (List.range n) n edges []).2
  exact (List.Perm.pairwise_iff (fun hxy => hsym hxy) hperm).mpr hpw

theorem tarjan_scc_mem_disjoint {n : Nat} {edges : List (Nat × Nat)}
    {g g' : List Nat} (hg : g ∈ tarjan_scc n edges) (hg' : g' ∈ tarjan_scc n edges)
    (hne : g ≠ g') : ∀ i ∈ g, ¬ i ∈ g' :=
  (tarjan_scc_disjoint n edges).forall
    (by intro x y hxy i hi hig; exact hxy i hig hi) hg hg' hne

theorem processGroups_mrtd_spec : ∀ gs fuel nodes Γ errs Γ' errs',
    processGroups fuel nodes gs Γ errs = some (Γ', errs') →
    (errs'.filter Error.isMutualRec = errs.filter Error.isMutualRec ++
      ((gs.filter (fun g => decide (1 < g.length))).map (fun g =>
        Error.MutuallyRecursiveTypeDefinitions
          (g.map (fun i => (nodes.getD i default).nameLoc))))) ∧
    (∀ k, (alookup Γ.defs k).isSome → (alookup Γ'.defs k).isSome) ∧
    (∀ g ∈ gs, g.length = 1 → ∀ i ∈ g,
      (alookup Γ'.defs (nodes.getD i default).name).isSome) := by
  intro gs
  induction gs with
  | nil =>
    intro fuel nodes Γ errs Γ' errs' h
    simp only [processGroups, Option.some.injEq, Prod.mk.injEq] at h
    obtain ⟨h1, h2⟩ := h
    subst h1
    subst h2
    exact ⟨by simp, fun k hk => hk, by simp⟩
  | cons g rest ih =>
    intro fuel nodes Γ errs Γ' errs' h
    cases g with
    | nil => simp only [processGroups] at h; exact Option.noConfusion h
    | cons i is =>
      cases is with
      | nil =>
        simp only [processGroups] at h
        cases hadd : Context.add_type_definition fuel Γ (nodes.getD i default) with
        | none => simp only [hadd] at h; exact Option.noConfusion h
        | some q =>
          obtain ⟨Γ1, e1⟩ := q
          have hdefs1 : Γ1.defs = mapInsert Γ.defs (nodes.getD i default).name
              (nodes.getD i default) :=
            add_type_definition_defs fuel Γ (nodes.getD i default) (Γ1, e1) hadd
          have hself : (alookup Γ1.defs (nodes.getD i default).name).isSome := by
            rw [hdefs1, alookup_mapInsert_self]
            rfl
          have hmono1 : ∀ k, (alookup Γ.defs k).isSome →
              (alookup Γ1.defs k).isSome := by
            intro k hk
            rw [hdefs1]
            exact alookup_mapInsert_isSome hk
          cases e1 with
          | ok u =>
            obtain ⟨⟩ := u
            simp only [hadd] at h
            obtain ⟨ha, hb, hc⟩ := ih fuel nodes Γ1 errs Γ' errs' h
            refine ⟨?_, fun k hk => hb k (hmono1 k hk), ?_⟩
            · rw [ha, List.filter_cons]
              simp only [List.length_cons, List.length_nil, decide_eq_true_eq]
              rw [if_neg (by simp)]
            · intro g' hg' hlen j hj
              rcases List.mem_cons.mp hg' with h1 | h1
              · subst h1
                simp only [List.mem_singleton] at hj
                subst hj
                exact hb _ hself
              · exact hc g' h1 hlen j hj
          | error es =>
            simp only [hadd] at h
            obtain ⟨ha, hb, hc⟩ := ih fuel nodes Γ1 (errs ++ es) Γ' errs' h
            have hes : es.filter Error.isMutualRec = [] :=
              List.filter_eq_nil_iff.mpr (fun e he => by
                simp [tag_not_mutual
                  (add_type_definition_error_tag fuel Γ _ Γ1 es hadd e he).1])
            refine ⟨?_, fun k hk => hb k (hmono1 k hk), ?_⟩
            · rw [ha, List.filter_append, hes, List.append_nil, List.filter_cons]
              simp only [List.length_cons, List.length_nil, decide_eq_true_eq]
              rw [if_neg (by simp)]
            · intro g' hg' hlen j hj
              rcases List.mem_cons.mp hg' with h1 | h1
              · subst h1
                simp only [List.mem_singleton] at hj
                subst hj
                exact hb _ hself
              · exact hc g' h1 hlen j hj
      | cons j js =>
        simp only [processGroups] at h
        obtain ⟨ha, hb, hc⟩ := ih fuel nodes Γ
          (errs ++ [.MutuallyRecursiveTypeDefinitions
            ((i :: j :: js).map (fun k => (nodes.getD k default).nameLoc))]) Γ' errs' h
        refine ⟨?_, hb, ?_⟩
        · rw [ha, List.filter_append, List.filter_cons]
          rw [if_pos (show Error.isMutualRec (.MutuallyRecursiveTypeDefinitions
            ((i :: j :: js).map (fun k => (nodes.getD k default).nameLoc))) = true
            from rfl)]
          rw [List.filter_nil, List.filter_cons]
          rw [if_pos (by simp)]
          simp [List.append_assoc]
        · intro g' hg' hlen jj hjj
          rcases List.mem_cons.mp hg' with h1 | h1
          · subst h1
            simp at hlen
          · exact hc g' h1 hlen jj hjj

/-- Claim C4 — mutual-recursion detection: when all per-definition checks
pass (no redefinition, dependency or self-recursion errors), the
`MutuallyRecursiveTypeDefinitions` errors in the result are exactly one
per strongly-connected component of more than one member, each listing
all member names; every singleton component's definition is registered in
`defs` (even if its body later fails), and its node belongs to no
multi-member component. -/
theorem C4_mutual_recursion_detection :
    ∀ fuel m Γ Γ' res nodes t2n edges,
      buildNodes m.types [] [] [] = ([], nodes, t2n) →
      buildDeps t2n m.types [] [] [] = ([], edges) →
      process_type_definitions fuel Γ m = some (Γ', res) →
      ((errlist res).filter Error.isMutualRec =
        ((tarjan_scc nodes.length edges).filter (fun g => decide (1 < g.length))).map
          (fun g => Error.MutuallyRecursiveTypeDefinitions
            (g.map (fun i => (nodes.getD i default).nameLoc)))) ∧
      (∀ g ∈ tarjan_scc nodes.length edges, g.length = 1 → ∀ i ∈ g,
        (alookup Γ'.defs (nodes.getD i default).name).isSome ∧
        ∀ g' ∈ tarjan_scc nodes.length edges, 1 < g'.length → ¬ i ∈ g') := by
  intro fuel m Γ Γ' res nodes t2n edges hbn hbd h
  simp only [process_type_definitions, hbn] at h
  simp only [hbd] at h
  rw [if_neg (by simp)] at h
  cases hpg : processGroups fuel nodes (tarjan_scc nodes.length edges) Γ [] with
  | none => simp only [hpg] at h; exact Option.noConfusion h
  | some q =>
    obtain ⟨Γ1, errs1⟩ := q
    simp only [hpg, Option.some.injEq, Prod.mk.injEq] at h
    obtain ⟨h1, h2⟩ := h
    subst h1
    obtain ⟨ha, hb, hc⟩ := processGroups_mrtd_spec _ fuel nodes Γ [] _ errs1 hpg
    constructor
    · cases herr : errs1.isEmpty with
      | true =>
        rw [herr] at h2
        rw [if_pos (by simp)] at h2
        rw [← h2]
        have he1 : errs1 = [] := by
          cases errs1 with
          | nil => rfl
          | cons a as => simp [List.isEmpty_cons] at herr
        rw [he1] at ha
        simp only [errlist]
        simp only [List.filter_nil] at ha ⊢
        exact ha
      | false =>
        rw [herr] at h2
        rw [if_neg (by simp)] at h2
        rw [← h2]
        simpa using ha
    · intro g hg hlen i hi
      refine ⟨hc g hg hlen i hi, ?_⟩
      intro g' hg' hlen' hig'
      have hne : g ≠ g' := by
        intro he
        rw [← he, hlen] at hlen'
        exact absurd hlen' (by norm_num)
      exact tarjan_scc_mem_disjoint hg hg' hne i hi hig'

/-- Witness for C4: the mutually recursive pair `A = record { b: B }`,
`B = record { a: A }` forms one two-member component reported as a single
`MutuallyRecursiveTypeDefinitions` naming both. -/
theorem C4_witness :
    ((errlist (.error [.MutuallyRecursiveTypeDefinitions [31, 37]])).filter
        Error.isMutualRec =
      ((tarjan_scc 2 [(0, 1), (1, 0)]).filter (fun g => decide (1 < g.length))).map
        (fun g => Error.MutuallyRecursiveTypeDefinitions
          (g.map (fun i => (([defMutA, defMutB].getD i default)).nameLoc)))) ∧
    (∀ g ∈ tarjan_scc 2 [(0, 1), (1, 0)], g.length = 1 → ∀ i ∈ g,
      (alookup Context.empty.defs (([defMutA, defMutB].getD i default)).name).isSome ∧
      ∀ g' ∈ tarjan_scc 2 [(0, 1), (1, 0)], 1 < g'.length → ¬ i ∈ g') :=
  C4_mutual_recursion_detection 10 mMut Context.empty Context.empty
    (.error [.MutuallyRecursiveTypeDefinitions [31, 37]])
    [defMutA, defMutB] [("B", 1), ("A", 0)] [(0, 1), (1, 0)] rfl rfl rfl

/-! ### Registration of a non-generic record definition, in detail -/

theorem wf_snd_nodup {Γ : Context} (hwf : WF Γ) :
    (Γ.types.map Prod.snd).Nodup := by
  rw [hwf.1]
  exact List.nodup_range _

theorem add_type_definition_record_shape : ∀ fuel Γ d fs Γ',
    d.generics = [] → d.rhs = .record fs →
    Context.add_type_definition fuel Γ d = some (Γ', .ok ()) →
    WF Γ →
    ∃ inner i,
      alookup Γ'.complete_types d.name = some i ∧
      (Ty.distinct Γ.distinct_counter inner, i) ∈ Γ'.types ∧
      Γ'.types.length = i + 1 ∧
      Γ.types.length ≤ i ∧
      (∀ p ∈ Γ.types, p ∈ Γ'.types) ∧
      WF Γ' ∧
      Γ'.distinct_counter = Γ.distinct_counter + 1 ∧
      (∀ k, k ≠ d.name → alookup Γ'.complete_types k = alookup Γ.complete_types k) := by
  intro fuel Γ d fs Γ' hgen hrhs h hwf
  simp only [Context.add_type_definition] at h
  rw [if_pos (by simp [hgen])] at h
  rw [hrhs] at h
  have hwf0 : WF { Γ with defs := mapInsert Γ.defs d.name d } := hwf
  cases hflds : add_record_fields fuel { Γ with defs := mapInsert Γ.defs d.name d }
      d.defLoc fs [] [] [] with
  | none => simp only [hflds] at h; exact Option.noConfusion h
  | some q =>
    obtain ⟨Γ1, errs1, fields1⟩ := q
    have hpres1 := add_record_fields_preserves fs fuel _ d.defLoc [] [] [] _ hflds
    obtain ⟨hwf1, hlen1, hmem1⟩ := hpres1.2.2.2.2.2.2 hwf0
    have hct1 : Γ1.complete_types = Γ.complete_types := hpres1.2.2.1
    have hcnt1 : Γ1.distinct_counter = Γ.distinct_counter := hpres1.2.2.2.1
    cases herr : errs1.isEmpty with
    | false =>
      simp only [hflds] at h
      rw [herr] at h
      rw [if_pos (by simp)] at h
      simp only [Option.some.injEq, Prod.mk.injEq] at h
      exact absurd h.2 (fun hc => Except.noConfusion hc)
    | true =>
      simp only [hflds] at h
      rw [herr] at h
      rw [if_neg (by simp)] at h
      injection h with h
      have hΓ' := congrArg Prod.fst h
      simp only at hΓ'
      have hpres2 : Preserves Γ1 (Γ1.add_or_get_type (.record fields1)).1 :=
        add_or_get_type_preserves (fun _ => rfl)
      obtain ⟨hwf2, hlen2, hmem2⟩ := hpres2.2.2.2.2.2.2 hwf1
      have hct2 : (Γ1.add_or_get_type (.record fields1)).1.complete_types =
          Γ1.complete_types := hpres2.2.2.1
      have hcnt2 : (Γ1.add_or_get_type (.record fields1)).1.distinct_counter =
          Γ1.distinct_counter := hpres2.2.2.2.1
      obtain ⟨hwf3, hty3, hid3, hcnt3⟩ :=
        next_then_add_distinct hwf2 (Γ1.add_or_get_type (.record fields1)).2
      refine ⟨(Γ1.add_or_get_type (.record fields1)).2,
        (Γ1.add_or_get_type (.record fields1)).1.types.length, ?_, ?_, ?_, ?_, ?_,
        ?_, ?_, ?_⟩
      · rw [← hΓ']
        show alookup (mapInsert _ d.name _) d.name = _
        rw [alookup_mapInsert_self]
        exact congrArg some hid3
      · rw [← hΓ']
        show _ ∈ ((Γ1.add_or_get_type (.record fields1)).1.next_distinct_id.1.add_type
          (.distinct (Γ1.add_or_get_type (.record fields1)).1.distinct_counter
            (Γ1.add_or_get_type (.record fields1)).2)).1.types
        rw [hty3]
        rw [show (Γ1.add_or_get_type (.record fields1)).1.distinct_counter =
          Γ.distinct_counter from hcnt2.trans hcnt1] at hty3 ⊢
        exact List.mem_append_right _ (List.mem_singleton.mpr rfl)
      · rw [← hΓ']
        show ((Γ1.add_or_get_type (.record fields1)).1.next_distinct_id.1.add_type
          (.distinct (Γ1.add_or_get_type (.record fields1)).1.distinct_counter
            (Γ1.add_or_get_type (.record fields1)).2)).1.types.length = _
        rw [hty3]
        simp
      · exact hlen1.trans hlen2
      · intro p hp
        rw [← hΓ']
        show p ∈ ((Γ1.add_or_get_type (.record fields1)).1.next_distinct_id.1.add_type
          (.distinct (Γ1.add_or_get_type (.record fields1)).1.distinct_counter
            (Γ1.add_or_get_type (.record fields1)).2)).1.types
        rw [hty3]
        exact List.mem_append_left _ (hmem2 p (hmem1 p hp))
      · rw [← hΓ']
        exact hwf3
      · rw [← hΓ']
        show ((Γ1.add_or_get_type (.record fields1)).1.next_distinct_id.1.add_type
          (.distinct (Γ1.add_or_get_type (.record fields1)).1.distinct_counter
            (Γ1.add_or_get_type (.record fields1)).2)).1.distinct_counter = _
        rw [hcnt3, hcnt2, hcnt1]
      · intro k hk
        rw [← hΓ']
        show alookup (mapInsert _ d.name _) k = _
        rw [alookup_mapInsert_ne _ d.name k _ hk]
        show alookup (Γ1.add_or_get_type (.record fields1)).1.complete_types k = _
        rw [hct2, hct1]

/-- Claim C8 — distinct nominal separation: two non-generic record
definitions with identical ordered field lists but different names,
successfully registered one after the other, are cached under different
`TypeId`s, each of which the interner maps to a `Distinct` wrapper
carrying a freshly allocated distinct id — the first gets the current
`distinct_counter`, the second the next value, so the ids are never
reused and the handles never unify. -/
theorem C8_distinct_nominal_separation :
    ∀ fuel Γ d1 d2 fs1 fs2 Γ1 Γ2,
      WF Γ →
      d1.generics = [] → d2.generics = [] →
      d1.rhs = .record fs1 → d2.rhs = .record fs2 → fs1 = fs2 →
      d1.name ≠ d2.name →
      Context.add_type_definition fuel Γ d1 = some (Γ1, .ok ()) →
      Context.add_type_definition fuel Γ1 d2 = some (Γ2, .ok ()) →
      ∃ i1 i2 inner1 inner2,
        alookup Γ2.complete_types d1.name = some i1 ∧
        alookup Γ2.complete_types d2.name = some i2 ∧
        i1 ≠ i2 ∧
        getByRight Γ2.types i1 = some (.distinct Γ.distinct_counter inner1) ∧
        getByRight Γ2.types i2 = some (.distinct (Γ.distinct_counter + 1) inner2) ∧
        Γ.distinct_counter ≠ Γ.distinct_counter + 1 := by
  intro fuel Γ d1 d2 fs1 fs2 Γ1 Γ2 hwf hg1 hg2 hr1 hr2 hfs hname h1 h2
  obtain ⟨inner1, i1, hc1, hm1, hlen1, hge1, hsub1, hwf1, hcnt1, hoth1⟩ :=
    add_type_definition_record_shape fuel Γ d1 fs1 Γ1 hg1 hr1 h1 hwf
  obtain ⟨inner2, i2, hc2, hm2, hlen2, hge2, hsub2, hwf2, hcnt2, hoth2⟩ :=
    add_type_definition_record_shape fuel Γ1 d2 fs2 Γ2 hg2 hr2 h2 hwf1
  refine ⟨i1, i2, inner1, inner2, ?_, hc2, ?_, ?_, ?_, by omega⟩
  · rw [hoth2 d1.name hname, hc1]
  · have h5 : i1 + 1 ≤ i2 := hlen1 ▸ hge2
    exact Nat.ne_of_lt (Nat.lt_of_succ_le h5)
  · exact mem_getByRight (wf_snd_nodup hwf2) (hsub2 _ hm1)
  · rw [← hcnt1]
    exact mem_getByRight (wf_snd_nodup hwf2) hm2

/-- Witness for C8: `P = record { x: Bool }` and `Q = record { x: Bool }`
registered from the empty context get the distinct ids 0 and 1 and the
different handles 2 and 3. -/
theorem C8_witness :
    ∃ i1 i2 inner1 inner2,
      alookup ctxPQ.complete_types "P" = some i1 ∧
      alookup ctxPQ.complete_types "Q" = some i2 ∧
      i1 ≠ i2 ∧
      getByRight ctxPQ.types i1 = some (.distinct Context.empty.distinct_counter inner1) ∧
      getByRight ctxPQ.types i2 =
        some (.distinct (Context.empty.distinct_counter + 1) inner2) ∧
      Context.empty.distinct_counter ≠ Context.empty.distinct_counter + 1 :=
  C8_distinct_nominal_separation 10 Context.empty defP defQ
    [⟨302, "x", trBool, 303⟩] [⟨302, "x", trBool, 303⟩] ctxP ctxPQ
    WF_empty rfl rfl rfl rfl rfl (by decide) rfl rfl

end Thiol
